import Mathlib

/-!
Verification of the m3u-updater repository (update_m3u.py, update_sony.py,
update_star.py, update_zee.py).  Python strings are modelled as lists of
characters (`Str`); the regular expressions used by the scripts are small
fixed patterns and are modelled by explicit character-class scanners.
-/

set_option maxHeartbeats 1000000

/-- A Python string: a sequence of characters. -/
abbrev Str := List Char

/-- Literal helper: the character list of a Lean string literal. -/
def str (s : String) : Str := s.data

/-- The left-brace character (written by code point to keep it out of literals). -/
def lbrace : Char := '\x7b'

/-- The right-brace character. -/
def rbrace : Char := '\x7d'

/-- Python `str.strip()` whitespace test (ASCII whitespace as in `\s`). -/
def pySpace (c : Char) : Bool :=
  (c == ' ') || (c == '\t') || (c == '\n') || (c == '\x0d') || (c == '\x0b') || (c == '\x0c')

/-- Python `str.lstrip()`. -/
def pyLstrip (s : Str) : Str := s.dropWhile pySpace

/-- Python `str.rstrip()`. -/
def pyRstrip (s : Str) : Str := (s.reverse.dropWhile pySpace).reverse

/-- Python `str.strip()`. -/
def pyStrip (s : Str) : Str := pyLstrip (pyRstrip s)

/-- Python `str.rstrip(",")`: drop all trailing commas. -/
def pyRstripComma (s : Str) : Str := (s.reverse.dropWhile (fun c => c == ',')).reverse

/-- Python `str.lower()` (ASCII case folding, all inputs here are ASCII). -/
def pyLower (s : Str) : Str := s.map Char.toLower

/-- Python `s.startswith(p)`. -/
def hasPfx (p s : Str) : Bool :=
  match p, s with
  | [], _ => true
  | _ :: _, [] => false
  | a :: ps, c :: cs => (a == c) && hasPfx ps cs

/-- Python `p in s` (substring test). -/
def containsSub (s p : Str) : Bool :=
  match s with
  | [] => hasPfx p []
  | _ :: cs => hasPfx p s || containsSub cs p

/-- Membership of a character in a string. -/
def memChar (c : Char) : Str → Bool
  | [] => false
  | d :: t => (d == c) || memChar c t

/-- Python `str.rpartition(",")`: `(before, sepFound, after)`, splitting at the
last comma; when no comma is present Python returns `("", "", s)`. -/
def rpartitionComma (l : Str) : Str × Bool × Str :=
  if memChar ',' l then
    (((l.reverse.dropWhile (fun c => !(c == ','))).drop 1).reverse, true,
      (l.reverse.takeWhile (fun c => !(c == ','))).reverse)
  else ([], false, l)

/-! ### Fixed regular expressions as character-class scanners

Each regex used in the scripts is a sequence of literal characters and
one-character classes; a pattern is a list of character predicates, matched
at each scan position from the left (the semantics of `re.search`/`re.split`
for these patterns). -/

/-- A pattern: one predicate per consumed character. -/
abbrev PatC := List (Char → Bool)

/-- Single-character literal pattern element. -/
def chEq (a : Char) : Char → Bool := fun c => c == a

/-- Two-character class pattern element, e.g. `[Cc]`. -/
def chIn2 (a b : Char) : Char → Bool := fun c => (c == a) || (c == b)

/-- Literal pattern out of a string. -/
def litPat (s : String) : PatC := (str s).map chEq

/-- Case-insensitive literal element (for `re.IGNORECASE`). -/
def ciEq (a : Char) : Char → Bool := fun c => c.toLower == a.toLower

/-- Match a pattern at the start of a string; returns the rest on success. -/
def matchPat : PatC → Str → Option Str
  | [], s => some s
  | _ :: _, [] => none
  | p :: ps, c :: cs => if p c then matchPat ps cs else none

/-- Leftmost split at a pattern: `re.split(pat, s, 1)` giving
`some (before, after)` when the pattern occurs. -/
def findSplitAux (pat : PatC) : Str → Str → Option (Str × Str)
  | acc, [] =>
    match matchPat pat [] with
    | some r => some (acc.reverse, r)
    | none => none
  | acc, c :: cs =>
    match matchPat pat (c :: cs) with
    | some r => some (acc.reverse, r)
    | none => findSplitAux pat (c :: acc) cs

/-- The pattern `\|[Cc]ookie=` shared by all four scripts. -/
def pipeCookiePat : PatC := chEq '|' :: chIn2 'C' 'c' :: litPat "ookie="

/-- The pattern `&[Uu]ser-[Aa]gent=` shared by all four scripts. -/
def uaAmpPat : PatC :=
  chEq '&' :: chIn2 'U' 'u' :: (litPat "ser-" ++ (chIn2 'A' 'a' :: litPat "gent="))

/-- `re.split(r'\|[Cc]ookie=', s, 1)`: `some (before, after)` iff it splits. -/
def pipeFind (s : Str) : Option (Str × Str) := findSplitAux pipeCookiePat [] s

/-- `re.split(r'&[Uu]ser-[Aa]gent=', s, 1)`. -/
def uaFind (s : Str) : Option (Str × Str) := findSplitAux uaAmpPat [] s

/-- `re.split(r'\|[Cc]ookie=|\?', s, 1)[0]` (update_sony/update_star): the
part before the first occurrence of the cookie marker or of a `?`. -/
def sonyCutAux : Str → Str → Str
  | acc, [] => acc.reverse
  | acc, c :: cs =>
    match matchPat pipeCookiePat (c :: cs) with
    | some _ => acc.reverse
    | none => if c == '?' then acc.reverse else sonyCutAux (c :: acc) cs

/-- The literal `?__hdnea__=`. -/
def hdneaLit : Str := str "?__hdnea__="

/-- The literal `&xxx=%7Ccookie=`. -/
def xxxLit : Str := str "&xxx=%7Ccookie="

/-- The pattern of `re.search(r'&xxx=%7Ccookie=([^&\s]+)', s)`'s literal part. -/
def xxxPat : PatC := xxxLit.map chEq

/-- `[^&\s]` character class. -/
def notAmpWs (c : Char) : Bool := !(c == '&') && !(pySpace c)

/-- `re.search(r'&xxx=%7Ccookie=([^&\s]+)', s)`: the first position where the
literal is followed by at least one `[^&\s]` character; capture that run. -/
def hdneaAux : Str → Option Str
  | [] => none
  | c :: cs =>
    match matchPat xxxPat (c :: cs) with
    | some rest =>
      let cap := rest.takeWhile notAmpWs
      if cap.isEmpty then hdneaAux cs else some cap
    | none => hdneaAux cs

/-- Try `"cookie"\s*:\s*"([^"]+)"` at the start of the string. -/
def cookieMatchAt (s : Str) : Option Str :=
  match matchPat (litPat "\"cookie\"") s with
  | none => none
  | some r1 =>
    match r1.dropWhile pySpace with
    | ':' :: r2 =>
      match r2.dropWhile pySpace with
      | '"' :: r3 =>
        let cap := r3.takeWhile (fun c => !(c == '"'))
        if cap.isEmpty then none
        else
          match r3.dropWhile (fun c => !(c == '"')) with
          | '"' :: _ => some cap
          | _ => none
      | _ => none
    | _ => none

/-- `re.search(r'"cookie"\s*:\s*"([^"]+)"', line)`: leftmost match's capture. -/
def cookieLineScan : Str → Option Str
  | [] => none
  | c :: cs =>
    match cookieMatchAt (c :: cs) with
    | some v => some v
    | none => cookieLineScan cs

/-- The case-insensitive pattern `http-user-agent=`. -/
def uaPatCI : PatC := (str "http-user-agent=").map ciEq

/-- `re.search(r'http-user-agent=(.*)', line, re.IGNORECASE)`: leftmost match,
capture the rest of the line. -/
def uaLineScan : Str → Option Str
  | [] => none
  | c :: cs =>
    match matchPat uaPatCI (c :: cs) with
    | some rest => some rest
    | none => uaLineScan cs

/-! ### Ordered dictionaries (Python `dict` semantics)

A Python dict is modelled as an association list with unique keys:
assignment updates the value in place when the key exists (keeping the
original insertion position) and appends otherwise; iteration follows the
list order. -/

/-- `d[k] = v` on a Python dict. -/
def dictSet {α : Type} : List (Str × α) → Str → α → List (Str × α)
  | [], k, v => [(k, v)]
  | (k', v') :: t, k, v => if k' = k then (k, v) :: t else (k', v') :: dictSet t k v

/-- `d[k]` / `k in d`: first (hence, for dicts, unique) binding. -/
def lookupStr {α : Type} : List (Str × α) → Str → Option α
  | [], _ => none
  | (k', v') :: t, k => if k' = k then some v' else lookupStr t k

/-- `k in d`. -/
def memKey {α : Type} (d : List (Str × α)) (k : Str) : Bool := (lookupStr d k).isSome

/-- Membership in a list of strings (`set` membership). -/
def memStr (x : Str) : List Str → Bool
  | [] => false
  | y :: t => (if y = x then true else memStr x t)

/-- `s.add(x)` on a Python set (modelled as an insertion-ordered list). -/
def setAdd (s : List Str) (x : Str) : List Str := if memStr x s then s else s ++ [x]

/-- The keys of an association list are pairwise distinct. -/
def keysNodup {α : Type} (d : List (Str × α)) : Prop := (d.map Prod.fst).Nodup

/-! ### `parse_channels_file` (identical in all four scripts) -/

/-- `re.match(r'^([^:]+)\s*:\s*\{\s*$', line)`, returning `group(1).strip()`:
a nonempty colon-free part, a colon, then optional whitespace, `{`,
optional whitespace, end of line. -/
def matchGroupHeader (line : Str) : Option Str :=
  let a := line.takeWhile (fun c => !(c == ':'))
  match line.dropWhile (fun c => !(c == ':')) with
  | ':' :: r =>
    if a.isEmpty then none
    else
      match r.dropWhile pySpace with
      | c :: r2 => if c == lbrace && (r2.dropWhile pySpace).isEmpty then some (pyStrip a) else none
      | [] => none
  | _ => none

/-- Python truthiness of an optional string (`None` and `""` are falsy). -/
def optTruthy : Option Str → Bool
  | some s => !s.isEmpty
  | none => false

/-- `groups[g].append(ch)` (the entry exists whenever this is reached). -/
def appendToGroup (gs : List (Str × List Str)) (g : Str) (ch : Str) : List (Str × List Str) :=
  gs.map (fun p => if p.1 = g then (p.1, p.2 ++ [ch]) else p)

/-- Parser state of `parse_channels_file`: the groups dict and the current group. -/
structure CfgSt where
  groups : List (Str × List Str)
  cur : Option Str

/-- One line of `parse_channels_file`'s loop. -/
def cfgStep (st : CfgSt) (raw : Str) : CfgSt :=
  let line := pyStrip raw
  if line.isEmpty then st
  else
    match matchGroupHeader line with
    | some g => ⟨dictSet st.groups g [], some g⟩
    | none =>
      if line = [rbrace] && optTruthy st.cur then ⟨st.groups, none⟩
      else
        match st.cur with
        | some g =>
          if g.isEmpty then st
          else
            let ch := pyStrip (pyRstripComma line)
            if ch.isEmpty then st else ⟨appendToGroup st.groups g ch, some g⟩
        | none => st

/-- `parse_channels_file`, over the file's lines. -/
def parse_channels_file (lines : List Str) : List (Str × List Str) :=
  (lines.foldl cfgStep ⟨[], none⟩).groups

/-- `{ch.lower(): grp for grp, chs in groups.items() for ch in chs}`. -/
def buildChanMap (groups : List (Str × List Str)) : List (Str × Str) :=
  groups.foldl (fun acc p => p.2.foldl (fun a2 ch => dictSet a2 (pyLower ch) p.1) acc) []

/-! ### `parse_m3u_blocks` (identical in all four scripts) -/

/-- The `#EXTINF` marker. -/
def extinfPfx : Str := str "#EXTINF"

/-- Display name of a lead line: `line.rpartition(",")[2].strip()`. -/
def nameOf (line : Str) : Str := pyStrip (rpartitionComma line).2.2

/-- State of `parse_m3u_blocks`'s loop. -/
structure ParseSt where
  header : List Str
  blocks : List (Str × List Str)
  cur : List Str
  curName : Option Str
  inB : Bool

/-- `if in_block and current_block and current_name is not None: blocks.append(...)`. -/
def flushIf (st : ParseSt) : List (Str × List Str) :=
  if st.inB && !st.cur.isEmpty && st.curName.isSome then
    st.blocks ++ [(st.curName.getD [], st.cur)]
  else st.blocks

/-- One line of `parse_m3u_blocks`'s loop. -/
def parseStepM3u (st : ParseSt) (line : Str) : ParseSt :=
  if hasPfx extinfPfx line then
    ⟨st.header, flushIf st, [line], some (nameOf line), true⟩
  else if st.inB then ⟨st.header, st.blocks, st.cur ++ [line], st.curName, st.inB⟩
  else ⟨st.header ++ [line], st.blocks, st.cur, st.curName, st.inB⟩

/-- `parse_m3u_blocks`: header lines and named blocks. -/
def parse_m3u_blocks (lines : List Str) : List Str × List (Str × List Str) :=
  let st := lines.foldl parseStepM3u ⟨[], [], [], none, false⟩
  (st.header, flushIf st)

/-! ### `set_group_title_in_extinf` (identical in all four scripts) -/

/-- The literal `group-title="`. -/
def gtBase : Str := str "group-title=\""

/-- Try the regex `group-title="[^"]*"` at the start; return the rest. -/
def gtMatchAt (s : Str) : Option Str :=
  match matchPat (gtBase.map chEq) s with
  | none => none
  | some r =>
    let rest := r.dropWhile (fun c => !(c == '"'))
    if rest.headD ' ' == '"' then some (rest.drop 1) else none

/-- `re.sub(r'group-title="[^"]*"', 'group-title="G"', s)`, fuel-indexed:
replace each non-overlapping leftmost match (every step consumes at least one
character, so any fuel of at least `s.length` computes the substitution). -/
def replaceAllGTFuel (g : Str) : Nat → Str → Str
  | 0, s => s
  | _ + 1, [] => []
  | n + 1, c :: cs =>
    match gtMatchAt (c :: cs) with
    | some rest => (gtBase ++ g ++ ['"']) ++ replaceAllGTFuel g n rest
    | none => c :: replaceAllGTFuel g n cs

/-- `re.sub(r'group-title="[^"]*"', 'group-title="G"', s)`. -/
def replaceAllGT (g : Str) (s : Str) : Str := replaceAllGTFuel g s.length s

/-- `set_group_title_in_extinf` (all four scripts; update_star's variant uses
`prefix += ...` which is the same assignment). -/
def set_group_title_in_extinf (l : Str) (g : Str) : Str :=
  let p := rpartitionComma l
  if p.2.1 then
    (if containsSub p.1 gtBase then replaceAllGT g p.1
     else p.1 ++ (str " group-title=\"" ++ g ++ ['"'])) ++ ',' :: p.2.2
  else l

/-! ### `transform_block` (one variant per script) -/

/-- The `#EXTHTTP` line marker. -/
def exthttpPfx : Str := str "#EXTHTTP"

/-- The `#EXTVLCOPT` line marker. -/
def vlcoptPfx : Str := str "#EXTVLCOPT"

/-- The cookie/user-agent scan over a block's lines: the last `#EXTHTTP` line
with a quoted cookie field and the last `#EXTVLCOPT` line with
`http-user-agent=` win (each assignment overwrites the previous). -/
def scanCredsStep (acc : Option Str × Option Str) (ln : Str) : Option Str × Option Str :=
  let a1 := if hasPfx exthttpPfx ln then
      match cookieLineScan ln with
      | some v => (some v, acc.2)
      | none => acc
    else acc
  if hasPfx vlcoptPfx ln then
    match uaLineScan ln with
    | some v => (a1.1, some (pyStrip v))
    | none => a1
  else a1

/-- `cookie_from_exthttp` and `ua_from_extvlc` for a block. -/
def scanCreds (src : List Str) : Option Str × Option Str :=
  src.foldl scanCredsStep (none, none)

/-- Is a (stripped) line the terminal URL line: nonempty and not a directive. -/
def isUrlLine (l : Str) : Bool :=
  let t := pyStrip l
  !t.isEmpty && !(hasPfx (str "#") t)

/-- Index of the last non-`#`, non-blank line (the terminal URL), if any. -/
def findUrlIdx : List Str → Option Nat
  | [] => none
  | l :: t =>
    match findUrlIdx t with
    | some j => some (j + 1)
    | none => if isUrlLine l then some 0 else none

/-- The stripped terminal URL line, if any. -/
def urlLineOf (src : List Str) : Option Str :=
  match findUrlIdx src with
  | some i => some (pyStrip (src.getD i []))
  | none => none

/-- Credential resolution of update_sony.py's `transform_block` (lines 94-118):
`#EXTHTTP` cookie, else the `|Cookie=` URL split, which may also overwrite the
user-agent with the `&User-Agent=` segment. -/
def resolveCred_sony (src : List Str) : Option Str × Option Str :=
  let c0 := (scanCreds src).1
  let u0 := (scanCreds src).2
  match c0, urlLineOf src with
  | none, some url =>
    if !url.isEmpty then
      match pipeFind url with
      | some p =>
        let tl := pyStrip p.2
        match uaFind tl with
        | some q => (some (pyStrip q.1), some (pyStrip q.2))
        | none => (some (pyStrip tl), u0)
      | none => (none, u0)
    else (none, u0)
  | _, _ => (c0, u0)

/-- Credential resolution of update_star.py's `transform_block` (lines 95-117):
identical to the sony variant. -/
def resolveCred_star (src : List Str) : Option Str × Option Str :=
  let c0 := (scanCreds src).1
  let u0 := (scanCreds src).2
  match c0, urlLineOf src with
  | none, some url =>
    if !url.isEmpty then
      match pipeFind url with
      | some p =>
        let tl := pyStrip p.2
        match uaFind tl with
        | some q => (some (pyStrip q.1), some (pyStrip q.2))
        | none => (some (pyStrip tl), u0)
      | none => (none, u0)
    else (none, u0)
  | _, _ => (c0, u0)

/-- Credential resolution of update_m3u.py's `transform_block` (lines 110-149):
the sony chain followed by the canonicalized-URL (`?__hdnea__=` +
`&xxx=%7Ccookie=`) extraction when still unresolved. -/
def resolveCred_m3u (src : List Str) : Option Str × Option Str :=
  let p := resolveCred_sony src
  match p.1, urlLineOf src with
  | none, some url =>
    (if !url.isEmpty && containsSub url hdneaLit && containsSub url xxxLit
     then hdneaAux url else none, p.2)
  | _, _ => p

/-- Credential resolution of update_zee.py's `transform_block` (lines 95-125):
identical to the m3u variant. -/
def resolveCred_zee (src : List Str) : Option Str × Option Str :=
  let p := resolveCred_sony src
  match p.1, urlLineOf src with
  | none, some url =>
    (if !url.isEmpty && containsSub url hdneaLit && containsSub url xxxLit
     then hdneaAux url else none, p.2)
  | _, _ => p

/-- update_m3u.py's base URL (lines 159-163): before `|Cookie=` when the
marker occurs, else before the first `?`. -/
def base_m3u (url : Str) : Str :=
  match pipeFind url with
  | some p => pyStrip p.1
  | none => pyStrip (url.takeWhile (fun c => !(c == '?')))

/-- update_sony.py / update_star.py's base URL (line 122 / 121): before the
first occurrence of `|Cookie=` or `?`, whichever comes first. -/
def base_sony (url : Str) : Str := pyStrip (sonyCutAux [] url)

/-- update_zee.py's base URL (lines 129-132): before the first `|` when the
`|Cookie=` marker occurs anywhere, else before the first `?`. -/
def base_zee (url : Str) : Str :=
  if (pipeFind url).isSome then pyStrip (url.takeWhile (fun c => !(c == '|')))
  else pyStrip (url.takeWhile (fun c => !(c == '?')))

/-- `f"{base}?{cookie}&xxx=%7Ccookie={cookie}"`. -/
def buildCanonUrl (base ck : Str) : Str := base ++ '?' :: (ck ++ xxxLit ++ ck)

/-- The lines kept from the source block: everything except `#EXTVLCOPT`,
`#EXTHTTP` and the terminal URL line. -/
def keepLines (src : List Str) (uidx : Option Nat) : List Str :=
  (src.enum.filter (fun p =>
    !(hasPfx vlcoptPfx p.2) && !(hasPfx exthttpPfx p.2) && !(decide (uidx = some p.1)))).map Prod.snd

/-- `#EXTHTTP:{"cookie":"<ck>"}`. -/
def mkExthttpLine (ck : Str) : Str :=
  str "#EXTHTTP:\x7b\"cookie\":\"" ++ ck ++ str "\"\x7d"

/-- `#EXTVLCOPT:http-user-agent=<ua>`. -/
def mkVlcoptLine (ua : Str) : Str := str "#EXTVLCOPT:http-user-agent=" ++ ua

/-- Block rebuild shared by all variants, parameterized by the resolved
credentials, the base-URL computation, and whether the user-agent is stripped
again at append time (`ua.strip()` in m3u/sony/zee, plain `ua` in star). -/
def mkTurl (src : List Str) (rc : Option Str × Option Str) (baseFn : Str → Str) : Option Str :=
  match urlLineOf src with
  | none => none
  | some url =>
    if optTruthy rc.1 && !url.isEmpty then
      some (buildCanonUrl (baseFn url) (rc.1.getD []))
    else some url

def appendUA (nb : List Str) (rc : Option Str × Option Str) (stripUA : Bool) : List Str :=
  if optTruthy rc.2 then
    nb ++ [mkVlcoptLine (if stripUA then pyStrip (rc.2.getD []) else rc.2.getD [])]
  else nb

def appendCk (nb : List Str) (rc : Option Str × Option Str) : List Str :=
  if optTruthy rc.1 then nb ++ [mkExthttpLine (pyStrip (rc.1.getD []))] else nb

def appendUrl (nb : List Str) : Option Str → List Str
  | some u => if !u.isEmpty then nb ++ [u] else nb
  | none => nb

def rebuildBlock (src : List Str) (rc : Option Str × Option Str)
    (baseFn : Str → Str) (stripUA : Bool) : List Str :=
  appendUrl (appendCk (appendUA (keepLines src (findUrlIdx src)) rc stripUA) rc)
    (mkTurl src rc baseFn)

/-- update_m3u.py `transform_block`. -/
def transform_block_m3u (src : List Str) : List Str :=
  if src.isEmpty then src else rebuildBlock src (resolveCred_m3u src) base_m3u true

/-- update_sony.py `transform_block`. -/
def transform_block_sony (src : List Str) : List Str :=
  if src.isEmpty then src else rebuildBlock src (resolveCred_sony src) base_sony true

/-- update_star.py's `#EXTHTTP` append (line 132): unlike the other three
scripts, the cookie is written without a second `.strip()`. -/
def appendCkStar (nb : List Str) (rc : Option Str × Option Str) : List Str :=
  if optTruthy rc.1 then nb ++ [mkExthttpLine (rc.1.getD [])] else nb

/-- Block rebuild of update_star.py: plain `ua` and plain `cookie` appends
(neither is re-stripped at append time). -/
def rebuildBlockStar (src : List Str) (rc : Option Str × Option Str)
    (baseFn : Str → Str) : List Str :=
  appendUrl (appendCkStar (appendUA (keepLines src (findUrlIdx src)) rc false) rc)
    (mkTurl src rc baseFn)

/-- update_star.py `transform_block`. -/
def transform_block_star (src : List Str) : List Str :=
  if src.isEmpty then src else rebuildBlockStar src (resolveCred_star src) base_sony

/-- update_zee.py `transform_block`. -/
def transform_block_zee (src : List Str) : List Str :=
  if src.isEmpty then src else rebuildBlock src (resolveCred_zee src) base_zee true

/-! ### The merge pass (update_sony.py `main`, lines 143-196) -/

/-- `new_block[0] = f(new_block[0])` (a block is never empty here). -/
def updateHead (f : Str → Str) : List Str → List Str
  | [] => []
  | h :: t => f h :: t

/-- `{name.lower(): block for name, block in blocks}`. -/
def buildIndex (bs : List (Str × List Str)) : List (Str × List Str) :=
  bs.foldl (fun acc p => dictSet acc (pyLower p.1) p.2) []

/-- `set_group_title_in_extinf(transform_block(idx[k])[0], g)` applied to the
fresh upstream block for key `k`. -/
def buildBlock (idx : List (Str × List Str)) (k g : Str) : List Str :=
  updateHead (fun h => set_group_title_in_extinf h g)
    (transform_block_sony ((lookupStr idx k).getD []))

/-- One step of the replace walk over the local blocks. -/
def walkStepFold (cmap : List (Str × Str)) (idx : List (Str × List Str))
    (st : List (Str × List Str) × List Str) (nb : Str × List Str) :
    List (Str × List Str) × List Str :=
  let lname := pyLower nb.1
  if memKey cmap lname && memKey idx lname then
    (st.1 ++ [(nb.1, buildBlock idx lname ((lookupStr cmap lname).getD []))], setAdd st.2 lname)
  else (st.1 ++ [nb], st.2)

/-- The replace walk (update_sony.py lines 167-177). -/
def walkFold (cmap : List (Str × Str)) (idx : List (Str × List Str))
    (blocks : List (Str × List Str)) : List (Str × List Str) × List Str :=
  blocks.foldl (walkStepFold cmap idx) ([], [])

/-- One step of the catch-up append over the config map. -/
def appendStepFold (idx : List (Str × List Str))
    (st : List (Str × List Str) × List Str) (p : Str × Str) :
    List (Str × List Str) × List Str :=
  if !(memStr p.1 st.2) && memKey idx p.1 then
    let nb := buildBlock idx p.1 p.2
    (st.1 ++ [(nameOf (nb.headD []), nb)], setAdd st.2 p.1)
  else st

/-- The catch-up append (update_sony.py lines 180-187). -/
def appendFold (cmap : List (Str × Str)) (idx : List (Str × List Str))
    (st : List (Str × List Str) × List Str) : List (Str × List Str) × List Str :=
  cmap.foldl (appendStepFold idx) st

/-- One merge pass: walk, then catch-up append. -/
def mergePass (cmap : List (Str × Str)) (idx : List (Str × List Str))
    (blocks : List (Str × List Str)) : List (Str × List Str) :=
  (appendFold cmap idx (walkFold cmap idx blocks)).1

/-- The whole update_sony.py run on in-memory documents: config lines,
upstream playlist lines, local playlist lines, producing the output lines
(`output_lines = header or ["#EXTM3U"]` followed by all block lines). -/
def runSony (u c l : List Str) : List Str :=
  (if (parse_m3u_blocks l).1.isEmpty then [str "#EXTM3U"] else (parse_m3u_blocks l).1) ++
    ((mergePass (buildChanMap (parse_channels_file c)) (buildIndex (parse_m3u_blocks u).2)
        (parse_m3u_blocks l).2).map Prod.snd).flatten

/-! ### Spec-side descriptions of the merge pass (from the specification's
wording, used to settle the refinement claims against the source folds) -/

/-- Per the spec: a local block is replaced iff its key is in the
channel-to-group map and in the upstream index. -/
def blockMatchesB (cmap : List (Str × Str)) (idx : List (Str × List Str))
    (nb : Str × List Str) : Bool :=
  memKey cmap (pyLower nb.1) && memKey idx (pyLower nb.1)

/-- Per the spec: the walk maps each local block to its replacement (or keeps
it verbatim), preserving positions. -/
def walkSpec (cmap : List (Str × Str)) (idx : List (Str × List Str))
    (blocks : List (Str × List Str)) : List (Str × List Str) :=
  blocks.map (fun nb =>
    if blockMatchesB cmap idx nb then
      (nb.1, buildBlock idx (pyLower nb.1) ((lookupStr cmap (pyLower nb.1)).getD []))
    else nb)

/-- Per the spec: the keys resolved during the walk. -/
def resolvedKeys (cmap : List (Str × Str)) (idx : List (Str × List Str))
    (blocks : List (Str × List Str)) : List Str :=
  (blocks.filter (blockMatchesB cmap idx)).map (fun nb => pyLower nb.1)

/-- Per the spec: after the walk the unresolved configured keys present in the
upstream index are appended in configuration order, built the same way. -/
def appendSpec (cmap : List (Str × Str)) (idx : List (Str × List Str))
    (blocks : List (Str × List Str)) : List (Str × List Str) :=
  (cmap.filter (fun p => !(memStr p.1 (resolvedKeys cmap idx blocks)) && memKey idx p.1)).map
    (fun p => (nameOf ((buildBlock idx p.1 p.2).headD []), buildBlock idx p.1 p.2))

/-- The local playlist read (update_sony.py lines 154-160): `none` models a
missing file, replaced by the one-line default document. -/
def localLinesOrDefault (o : Option (List Str)) : List Str := o.getD [str "#EXTM3U"]

/-- A run whose local playlist file may be absent. -/
def runSonyOpt (u c : List Str) (o : Option (List Str)) : List Str :=
  runSony u c (localLinesOrDefault o)

/-- `"\n".join(output_lines) + "\n"` — the bytes written back. -/
def serializeM3u : List Str → Str
  | [] => ['\n']
  | [l] => l ++ ['\n']
  | l :: t => l ++ '\n' :: serializeM3u t

/-! ### Structural invariants of parsed documents -/

/-- Is this line a block start (`line.startswith("#EXTINF")`)? -/
def ExtB (l : Str) : Bool := hasPfx extinfPfx l

/-- A well-formed block: nonempty, lead line is a block start, and no interior
line is a block start. -/
def GoodBlk (b : List Str) : Prop :=
  b ≠ [] ∧ ExtB (b.headD []) = true ∧ ∀ l ∈ b.tail, ExtB l = false

/-- A well-formed named block, as produced by the parser: the stored name is
the lead line's display name. -/
def GoodNB (p : Str × List Str) : Prop := GoodBlk p.2 ∧ p.1 = nameOf (p.2.headD [])

/-- Invariant of `parse_m3u_blocks`'s loop state. -/
def GoodSt (st : ParseSt) : Prop :=
  (∀ l ∈ st.header, ExtB l = false) ∧
  (∀ p ∈ st.blocks, GoodNB p) ∧
  (st.inB = true → GoodBlk st.cur ∧ st.curName = some (nameOf (st.cur.headD []))) ∧
  (st.inB = false → st.cur = [] ∧ st.blocks = [])

/-- Number of blocks of a parsed document carrying channel key `k`. -/
def countKey (bs : List (Str × List Str)) (k : Str) : Nat :=
  (bs.filter (fun p => decide (pyLower p.1 = k))).length

/-- Try the regex `group-title="([^"]*)"` at the start; return the capture. -/
def gtCapAt (s : Str) : Option Str :=
  match matchPat (gtBase.map chEq) s with
  | none => none
  | some r =>
    if (r.dropWhile (fun c => !(c == '"'))).headD ' ' == '"' then
      some (r.takeWhile (fun c => !(c == '"')))
    else none

/-- The `group-title` attribute value of a lead line: the capture of the
leftmost `group-title="([^"]*)"` match (the spec-side reading used to state
what "the block's group title" is). -/
def getGT : Str → Option Str
  | [] => none
  | c :: cs =>
    match gtCapAt (c :: cs) with
    | some v => some v
    | none => getGT cs

/-! ### Spec-side descriptions of credential resolution (the specification's
"credential extraction priority" chain, amended to what the code does) -/

/-- Spec-shaped resolver for update_m3u.py / update_zee.py: a cookie quoted in
an `#EXTHTTP` directive wins and leaves the directive user-agent in force;
else a `|Cookie=` URL split supplies the cookie, and its `&User-Agent=`
segment (when present) overwrites the directive user-agent; else, when the
URL contains both `?__hdnea__=` and `&xxx=%7Ccookie=`, the cookie is the
`xxx=%7Ccookie=` value up to the next `&` or whitespace. -/
def specResolve_m3u (src : List Str) : Option Str × Option Str :=
  let dc := (scanCreds src).1
  let du := (scanCreds src).2
  match urlLineOf src with
  | none => (dc, du)
  | some url =>
    match dc with
    | some c => (some c, du)
    | none =>
      if url.isEmpty then (none, du) else
      match pipeFind url with
      | some p =>
        let tl := pyStrip p.2
        match uaFind tl with
        | some q => (some (pyStrip q.1), some (pyStrip q.2))
        | none => (some (pyStrip tl), du)
      | none =>
        (if containsSub url hdneaLit && containsSub url xxxLit
         then hdneaAux url else none, du)

/-- Spec-shaped resolver for update_sony.py / update_star.py: the same chain
without the canonicalized-URL (`?__hdnea__=` / `&xxx=%7Ccookie=`) step. -/
def specResolve_star (src : List Str) : Option Str × Option Str :=
  let dc := (scanCreds src).1
  let du := (scanCreds src).2
  match urlLineOf src with
  | none => (dc, du)
  | some url =>
    match dc with
    | some c => (some c, du)
    | none =>
      if url.isEmpty then (none, du) else
      match pipeFind url with
      | some p =>
        let tl := pyStrip p.2
        match uaFind tl with
        | some q => (some (pyStrip q.1), some (pyStrip q.2))
        | none => (some (pyStrip tl), du)
      | none => (none, du)

/-- The leftmost `group-title="` occurrence of a line, if any, is a complete
`group-title="[^"]*"` attribute (it has a closing quote). Lines with no
`group-title="` occurrence satisfy this trivially. -/
def gtFirstClosed : Str → Bool
  | [] => true
  | c :: cs =>
    if hasPfx gtBase (c :: cs) then (gtMatchAt (c :: cs)).isSome
    else gtFirstClosed cs

example : str "ab" = ['a', 'b'] := rfl
example : getGT (str "#EXTINF:-1 tvg-id=\"x\" group-title=\"News\", Star HD")
    = some (str "News") := rfl
example : getGT (str "#EXTINF:-1,A") = none := rfl
example : set_group_title_in_extinf (str "#EXTINF:-1 tvg-id=\"x\" group-title=\"Old\", Star HD ") (str "News")
    = str "#EXTINF:-1 tvg-id=\"x\" group-title=\"News\", Star HD " := rfl
example : set_group_title_in_extinf (str "#EXTINF:-1, Star HD") (str "News")
    = str "#EXTINF:-1 group-title=\"News\", Star HD" := rfl
example : set_group_title_in_extinf (str "#EXTINF no comma") (str "News") = str "#EXTINF no comma" := rfl
example : set_group_title_in_extinf (str "#EXTINF:-1 group-title=\"a\" group-title=\"b\",N") (str "G")
    = str "#EXTINF:-1 group-title=\"G\" group-title=\"G\",N" := rfl
example : transform_block_m3u
      [str "#EXTINF:-1,A", str "#EXTVLCOPT:http-user-agent=UA1", str "http://h/p|Cookie=c&User-Agent=UA2"]
    = [str "#EXTINF:-1,A", str "#EXTVLCOPT:http-user-agent=UA2",
       str "#EXTHTTP:\x7b\"cookie\":\"c\"\x7d", str "http://h/p?c&xxx=%7Ccookie=c"] := rfl
example : transform_block_m3u
      [str "#EXTINF:-1,A", str "#EXTHTTP:\x7b\"cookie\":\"c\",\"Origin\":\"o\"\x7d", str "http://u?q"]
    = [str "#EXTINF:-1,A", str "#EXTHTTP:\x7b\"cookie\":\"c\"\x7d", str "http://u?c&xxx=%7Ccookie=c"] := rfl
example : transform_block_m3u [str "#EXTINF:-1,A", str "http://h/p|COOKIE=abc"]
    = [str "#EXTINF:-1,A", str "http://h/p|COOKIE=abc"] := rfl
example : transform_block_m3u [str "#EXTINF:-1,A", str "http://h/p?__hdnea__=x&xxx=%7Ccookie=ck99"]
    = [str "#EXTINF:-1,A", str "#EXTHTTP:\x7b\"cookie\":\"ck99\"\x7d",
       str "http://h/p?ck99&xxx=%7Ccookie=ck99"] := rfl
example : transform_block_m3u [str "#EXTINF:-1,A"] = [str "#EXTINF:-1,A"] := rfl
example : transform_block_m3u [str "#EXTINF:-1,A", str "http://h/p|Cookie=&User-Agent=UA2"]
    = [str "#EXTINF:-1,A", str "#EXTVLCOPT:http-user-agent=UA2",
       str "http://h/p|Cookie=&User-Agent=UA2"] := rfl
example : transform_block_sony [str "#EXTINF:-1,A", str "http://h/p?q|Cookie=c"]
    = [str "#EXTINF:-1,A", str "#EXTHTTP:\x7b\"cookie\":\"c\"\x7d",
       str "http://h/p?c&xxx=%7Ccookie=c"] := rfl
example : transform_block_star
      [str "#EXTINF:-1,A", str "#EXTHTTP:\x7b\"cookie\":\" c \"\x7d", str "http://h/p"]
    = [str "#EXTINF:-1,A", str "#EXTHTTP:\x7b\"cookie\":\" c \"\x7d",
       str "http://h/p? c &xxx=%7Ccookie= c "] := rfl
example : transform_block_m3u
      [str "#EXTINF:-1,A", str "#EXTHTTP:\x7b\"cookie\":\" c \"\x7d", str "http://h/p"]
    = [str "#EXTINF:-1,A", str "#EXTHTTP:\x7b\"cookie\":\"c\"\x7d",
       str "http://h/p? c &xxx=%7Ccookie= c "] := rfl
example : transform_block_m3u [str "#EXTINF:-1,A", str "http://h/p?q|Cookie=c"]
    = [str "#EXTINF:-1,A", str "#EXTHTTP:\x7b\"cookie\":\"c\"\x7d",
       str "http://h/p?q?c&xxx=%7Ccookie=c"] := rfl
example : parse_channels_file [str "News: \x7b", str "  Star HD,", str "\x7d"]
    = [(str "News", [str "Star HD"])] := rfl
example : parse_channels_file
      [str "G1: \x7b", str "A", str "\x7d", str "G1: \x7b", str "B", str "\x7d"]
    = [(str "G1", [str "B"])] := rfl
example : buildChanMap [(str "News", [str "Star HD", str "Zed"]), (str "Mov", [str "STAR hd"])]
    = [(str "star hd", str "Mov"), (str "zed", str "News")] := rfl
example : parse_m3u_blocks [str "#EXTM3U", str "#EXTINF:-1,A", str "u1", str "#EXTINF:-1, B ", str "u2"]
    = ([str "#EXTM3U"], [(str "A", [str "#EXTINF:-1,A", str "u1"]),
       (str "B", [str "#EXTINF:-1, B ", str "u2"])]) := rfl
example :
    runSony
      [str "#EXTM3U up", str "#EXTINF:-1 tvg-id=\"s\", Sony HD", str "#KODIPROP:x=y",
       str "#EXTVLCOPT:http-user-agent=OldUA", str "http://s/live|cookie=CK&user-agent=NewUA",
       str "#EXTINF:-1,Extra", str "http://e/x", str "#EXTINF:-1,Dup", str "http://d/1",
       str "#EXTINF:-1,Dup", str "http://d/2"]
      [str "Sports: \x7b", str "SONY hd,", str "Dup", str "Ghost", str "\x7d",
       str "News: \x7b", str "Extra", str "\x7d"]
      [str "#EXTM3U", str "# comment", str "#EXTINF:-1 group-title=\"Old\",sony hd",
       str "http://old/url", str "#EXTINF:-1,Keep Me", str "http://keep/me"]
    = [str "#EXTM3U", str "# comment",
       str "#EXTINF:-1 tvg-id=\"s\" group-title=\"Sports\", Sony HD", str "#KODIPROP:x=y",
       str "#EXTVLCOPT:http-user-agent=NewUA", str "#EXTHTTP:\x7b\"cookie\":\"CK\"\x7d",
       str "http://s/live?CK&xxx=%7Ccookie=CK",
       str "#EXTINF:-1,Keep Me", str "http://keep/me",
       str "#EXTINF:-1 group-title=\"Sports\",Dup", str "http://d/2",
       str "#EXTINF:-1 group-title=\"News\",Extra", str "http://e/x"] := rfl
example : pyStrip (str "  a b  ") = str "a b" := rfl
example : hasPfx (str "#EXT") (str "#EXTINF:-1,x") = true := rfl
example : containsSub (str "abcd") (str "bc") = true := rfl
example : pyRstripComma (str "ab,,") = str "ab" := rfl
example : pyLower (str "AbC") = str "abc" := rfl
example : rpartitionComma (str "a,b,c") = (str "a,b", true, str "c") := rfl
example : rpartitionComma (str "abc") = ([], false, str "abc") := rfl
example : pipeFind (str "http://h/p|cookie=abc") = some (str "http://h/p", str "abc") := rfl
example : pipeFind (str "http://h/p|COOKIE=abc") = none := rfl
example : uaFind (str "ck&user-Agent=UA") = some (str "ck", str "UA") := rfl
example : sonyCutAux [] (str "http://h/p?q|Cookie=c") = str "http://h/p" := rfl
example : sonyCutAux [] (str "http://h/p|Cookie=c?x") = str "http://h/p" := rfl
example : hdneaAux (str "u?__hdnea__=x&xxx=%7Ccookie=abc&z") = some (str "abc") := rfl
example : hdneaAux (str "u&xxx=%7Ccookie=&xxx=%7Ccookie=q") = some (str "q") := rfl
example : cookieLineScan (str "#EXTHTTP:\x7b\"cookie\":\"abc\"\x7d") = some (str "abc") := rfl
example : cookieLineScan (str "#EXTHTTP:\x7b\"cookie\":\"\"\x7d") = none := rfl
example : uaLineScan (str "#EXTVLCOPT:HTTP-User-Agent=Foo Bar") = some (str "Foo Bar") := rfl

/-! ### Basic lemmas: list-set and dictionary operations -/

theorem memStr_iff {x : Str} {l : List Str} : memStr x l = true ↔ x ∈ l := by
  induction l with
  | nil => simp [memStr]
  | cons y t ih =>
    simp only [memStr]
    by_cases h : y = x
    · subst h; simp
    · simp only [if_neg h, ih, List.mem_cons]
      constructor
      · exact Or.inr
      · rintro (h1 | h1)
        · exact absurd h1.symm h
        · exact h1

theorem memStr_append {x : Str} {a b : List Str} :
    memStr x (a ++ b) = (memStr x a || memStr x b) := by
  induction a with
  | nil => simp [memStr]
  | cons y t ih =>
    simp only [List.cons_append, memStr]
    by_cases h : y = x
    · simp [h]
    · simp [h, ih]

theorem memStr_singleton {x y : Str} : memStr x [y] = decide (x = y) := by
  simp only [memStr]
  by_cases h : x = y
  · subst h; simp
  · rw [if_neg (fun hh => h hh.symm), decide_eq_false h]

theorem memStr_setAdd {x y : Str} {s : List Str} :
    memStr x (setAdd s y) = (memStr x s || decide (x = y)) := by
  unfold setAdd
  by_cases hy : memStr y s = true
  · rw [if_pos hy]
    by_cases hxy : x = y
    · subst hxy; simp [hy]
    · simp [hxy]
  · rw [if_neg hy, memStr_append, memStr_singleton]

theorem lookupStr_dictSet {α : Type} (d : List (Str × α)) (k q : Str) (v : α) :
    lookupStr (dictSet d k v) q = if k = q then some v else lookupStr d q := by
  induction d with
  | nil => simp [dictSet, lookupStr]
  | cons p t ih =>
    cases p with
    | mk k' v' =>
      simp only [dictSet]
      by_cases h1 : k' = k
      · rw [if_pos h1]
        subst h1
        simp only [lookupStr]
        by_cases h2 : k' = q
        · simp [h2]
        · simp [h2]
      · rw [if_neg h1]
        simp only [lookupStr, ih]
        by_cases h2 : k' = q
        · subst h2
          rw [if_pos rfl, if_neg (fun hh : k = k' => h1 hh.symm), if_pos rfl]
        · rw [if_neg h2]
          by_cases h3 : k = q
          · simp [h3]
          · simp [h3, h2]

theorem lookupStr_mem {α : Type} {d : List (Str × α)} {k : Str} {v : α}
    (h : lookupStr d k = some v) : (k, v) ∈ d := by
  induction d with
  | nil => simp [lookupStr] at h
  | cons p t ih =>
    cases p with
    | mk k' v' =>
      simp only [lookupStr] at h
      by_cases h1 : k' = k
      · rw [if_pos h1] at h
        subst h1
        simp only [Option.some.injEq] at h
        subst h
        exact List.mem_cons_self _ _
      · rw [if_neg h1] at h
        exact List.mem_cons_of_mem _ (ih h)

theorem mem_lookupStr_nodup {α : Type} {d : List (Str × α)} {k : Str} {v : α}
    (hnd : keysNodup d) (h : (k, v) ∈ d) : lookupStr d k = some v := by
  induction d with
  | nil => simp at h
  | cons p t ih =>
    cases p with
    | mk k' v' =>
      simp only [keysNodup, List.map_cons, List.nodup_cons] at hnd
      rcases List.mem_cons.mp h with h1 | h1
      · injection h1 with e1 e2
        subst e1
        subst e2
        simp [lookupStr]
      · have hk : k' ≠ k := by
          intro he
          subst he
          exact hnd.1 (List.mem_map.mpr ⟨(k', v), h1, rfl⟩)
        simp only [lookupStr, if_neg hk]
        exact ih hnd.2 h1

theorem dictSet_keys {α : Type} (d : List (Str × α)) (k : Str) (v : α) :
    (dictSet d k v).map Prod.fst =
      if memStr k (d.map Prod.fst) then d.map Prod.fst else d.map Prod.fst ++ [k] := by
  induction d with
  | nil => simp [dictSet, memStr]
  | cons p t ih =>
    cases p with
    | mk k' v' =>
      simp only [dictSet, List.map_cons]
      by_cases h1 : k' = k
      · rw [if_pos h1]
        subst h1
        simp only [memStr, if_pos rfl, List.map_cons]
        simp
      · rw [if_neg h1]
        simp only [List.map_cons, memStr, if_neg h1, ih]
        by_cases h2 : memStr k (t.map Prod.fst) = true
        · simp [h2]
        · simp only [h2, Bool.false_eq_true, if_false, List.cons_append]

theorem keysNodup_dictSet {α : Type} {d : List (Str × α)} (k : Str) (v : α)
    (hnd : keysNodup d) : keysNodup (dictSet d k v) := by
  unfold keysNodup
  rw [dictSet_keys]
  by_cases h : memStr k (d.map Prod.fst) = true
  · rw [if_pos h]
    exact hnd
  · rw [if_neg h]
    have hk : k ∉ d.map Prod.fst := fun hm => h (memStr_iff.mpr hm)
    rw [List.nodup_append]
    refine ⟨hnd, List.nodup_singleton _, ?_⟩
    intro q hq hq2
    simp only [List.mem_singleton] at hq2
    subst hq2
    exact hk hq

theorem foldl_preserves {α β : Type} (P : α → Prop) (step : α → β → α)
    (hstep : ∀ a b, P a → P (step a b)) :
    ∀ (l : List β) (a : α), P a → P (List.foldl step a l) := by
  intro l
  induction l with
  | nil => intro a ha; simpa using ha
  | cons x t ih => intro a ha; simpa using ih _ (hstep _ _ ha)

theorem buildChanMap_nodup (groups : List (Str × List Str)) :
    keysNodup (buildChanMap groups) := by
  unfold buildChanMap
  refine foldl_preserves keysNodup _ ?_ groups [] (by simp [keysNodup])
  intro a p ha
  exact foldl_preserves keysNodup _ (fun a2 ch h2 => keysNodup_dictSet _ _ h2) p.2 a ha

theorem buildIndex_nodup (bs : List (Str × List Str)) : keysNodup (buildIndex bs) := by
  unfold buildIndex
  exact foldl_preserves keysNodup _ (fun a p h => keysNodup_dictSet _ _ h) bs []
    (by simp [keysNodup])

theorem buildIndex_lookup_mem {bs : List (Str × List Str)} {k : Str} {b : List Str}
    (h : lookupStr (buildIndex bs) k = some b) :
    ∃ n, (n, b) ∈ bs ∧ pyLower n = k := by
  unfold buildIndex at h
  suffices H : ∀ (acc : List (Str × List Str)),
      lookupStr (List.foldl (fun acc p => dictSet acc (pyLower p.1) p.2) acc bs) k = some b →
      (∃ n, (n, b) ∈ bs ∧ pyLower n = k) ∨ lookupStr acc k = some b by
    rcases H [] h with h1 | h1
    · exact h1
    · simp [lookupStr] at h1
  clear h
  induction bs with
  | nil => intro acc h; exact Or.inr h
  | cons p t ih =>
    intro acc h
    simp only [List.foldl_cons] at h
    rcases ih _ h with h1 | h1
    · rcases h1 with ⟨n, hn, he⟩
      exact Or.inl ⟨n, List.mem_cons_of_mem _ hn, he⟩
    · rw [lookupStr_dictSet] at h1
      by_cases h2 : pyLower p.1 = k
      · rw [if_pos h2] at h1
        simp only [Option.some.injEq] at h1
        subst h1
        exact Or.inl ⟨p.1, by simp, h2⟩
      · rw [if_neg h2] at h1
        exact Or.inr h1

/-! ### Characterization of the merge pass -/

theorem walkFold_fst (cmap : List (Str × Str)) (idx : List (Str × List Str)) :
    ∀ (blocks : List (Str × List Str)) (st : List (Str × List Str) × List Str),
      (List.foldl (walkStepFold cmap idx) st blocks).1 = st.1 ++ walkSpec cmap idx blocks := by
  intro blocks
  induction blocks with
  | nil => intro st; simp [walkSpec]
  | cons nb t ih =>
    intro st
    simp only [List.foldl_cons, walkSpec, List.map_cons]
    rw [ih]
    unfold walkStepFold
    by_cases h : (blockMatchesB cmap idx nb) = true
    · unfold blockMatchesB at h
      rw [if_pos h]
      simp only [h, if_pos]
      rw [walkSpec, List.append_assoc]
      simp [blockMatchesB, h]
    · unfold blockMatchesB at h
      rw [if_neg h]
      simp only [walkSpec]
      rw [List.append_assoc]
      simp [blockMatchesB, h]

theorem walkFold_snd_mem (cmap : List (Str × Str)) (idx : List (Str × List Str)) :
    ∀ (blocks : List (Str × List Str)) (st : List (Str × List Str) × List Str) (x : Str),
      memStr x (List.foldl (walkStepFold cmap idx) st blocks).2 =
        (memStr x st.2 || memStr x (resolvedKeys cmap idx blocks)) := by
  intro blocks
  induction blocks with
  | nil => intro st x; simp [resolvedKeys, memStr]
  | cons nb t ih =>
    intro st x
    simp only [List.foldl_cons]
    rw [ih]
    unfold walkStepFold
    by_cases h : (blockMatchesB cmap idx nb) = true
    · unfold blockMatchesB at h
      rw [if_pos h]
      simp only [memStr_setAdd]
      unfold resolvedKeys
      rw [List.filter_cons_of_pos (by simpa [blockMatchesB] using h)]
      simp only [List.map_cons, memStr]
      by_cases hx : pyLower nb.1 = x
      · simp [hx]
      · simp only [if_neg hx]
        rw [show memStr x ((List.filter (blockMatchesB cmap idx) t).map fun nb => pyLower nb.1)
            = memStr x (resolvedKeys cmap idx t) from rfl]
        rw [decide_eq_false (fun hh : x = pyLower nb.1 => hx hh.symm)]
        cases memStr x st.2 <;> cases memStr x (resolvedKeys cmap idx t) <;> rfl
    · unfold blockMatchesB at h
      rw [if_neg h]
      unfold resolvedKeys
      rw [List.filter_cons_of_neg (by simpa [blockMatchesB] using h)]

theorem appendFold_fst (cmap : List (Str × Str)) (idx : List (Str × List Str))
    (hnd : keysNodup cmap) :
    ∀ (st : List (Str × List Str) × List Str),
      (appendFold cmap idx st).1 = st.1 ++
        (cmap.filter (fun p => !(memStr p.1 st.2) && memKey idx p.1)).map
          (fun p => (nameOf ((buildBlock idx p.1 p.2).headD []), buildBlock idx p.1 p.2)) := by
  unfold appendFold
  induction cmap with
  | nil => intro st; simp
  | cons p t ih =>
    intro st
    simp only [keysNodup, List.map_cons, List.nodup_cons] at hnd
    have hpt : ∀ q ∈ t, q.1 ≠ p.1 := by
      intro q hq he
      exact hnd.1 (List.mem_map.mpr ⟨q, hq, he⟩)
    simp only [List.foldl_cons]
    by_cases h : (!(memStr p.1 st.2) && memKey idx p.1) = true
    · rw [@List.filter_cons_of_pos _ (fun q : Str × Str => !(memStr q.1 st.2) && memKey idx q.1) p t h]
      have hstep : appendStepFold idx st p
          = (st.1 ++ [(nameOf ((buildBlock idx p.1 p.2).headD []), buildBlock idx p.1 p.2)],
             setAdd st.2 p.1) := by
        unfold appendStepFold
        rw [if_pos h]
      rw [hstep, ih hnd.2]
      simp only [List.map_cons, List.append_assoc, List.singleton_append]
      congr 3
      apply List.filter_congr
      intro q hq
      rw [memStr_setAdd, decide_eq_false (hpt q hq)]
      simp
    · rw [@List.filter_cons_of_neg _ (fun q : Str × Str => !(memStr q.1 st.2) && memKey idx q.1) p t h]
      have hstep : appendStepFold idx st p = st := by
        unfold appendStepFold
        rw [if_neg h]
      rw [hstep]
      exact ih hnd.2 st

theorem mergePass_eq (cmap : List (Str × Str)) (idx : List (Str × List Str))
    (blocks : List (Str × List Str)) (hnd : keysNodup cmap) :
    mergePass cmap idx blocks = walkSpec cmap idx blocks ++ appendSpec cmap idx blocks := by
  unfold mergePass
  rw [appendFold_fst cmap idx hnd]
  unfold walkFold
  rw [walkFold_fst]
  simp only [List.nil_append]
  congr 1
  unfold appendSpec
  congr 1
  apply List.filter_congr
  intro q hq
  rw [show (List.foldl (walkStepFold cmap idx) ([], []) blocks).2
      = (List.foldl (walkStepFold cmap idx) (([] : List (Str × List Str)), ([] : List Str)) blocks).2 from rfl]
  rw [walkFold_snd_mem]
  simp [memStr]

/-! ### Claim C1 -/

/-- C1: one merge pass walks the local blocks in their original order,
replacing exactly those blocks whose channel key (lowercased trimmed display
name) is in the channel-to-group map and in the upstream index by the
transformed upstream block with its group title set (`walkSpec`), keeping all
other local blocks verbatim in place; afterwards each configured key that was
not resolved by the walk but is present in the upstream index is appended as
a freshly built block, in configuration order, and configured keys absent from
the upstream index are skipped (`appendSpec`).  The hypothesis holds for every
map the scripts build, since Python dict keys are unique. -/
theorem C1_merge_walk_then_append (cmap : List (Str × Str)) (idx : List (Str × List Str))
    (blocks : List (Str × List Str)) (hnd : keysNodup cmap) :
    mergePass cmap idx blocks = walkSpec cmap idx blocks ++ appendSpec cmap idx blocks :=
  mergePass_eq cmap idx blocks hnd

/-- Witness for C1 at a concrete map, index and local document. -/
theorem C1_merge_walk_then_append_witness :
    mergePass [(str "a", str "G")]
      [(str "a", [str "#EXTINF:-1,A", str "http://u"])]
      [(str "B", [str "#EXTINF:-1,B", str "http://b"])]
    = walkSpec [(str "a", str "G")]
        [(str "a", [str "#EXTINF:-1,A", str "http://u"])]
        [(str "B", [str "#EXTINF:-1,B", str "http://b"])]
      ++ appendSpec [(str "a", str "G")]
        [(str "a", [str "#EXTINF:-1,A", str "http://u"])]
        [(str "B", [str "#EXTINF:-1,B", str "http://b"])] :=
  C1_merge_walk_then_append _ _ _ (by simp [keysNodup])

/-! ### Parse invariants and the serialize/reparse round trip -/

theorem flushIf_good {st : ParseSt} (h : GoodSt st) : ∀ p ∈ flushIf st, GoodNB p := by
  obtain ⟨_, hb, hcur, _⟩ := h
  intro p hp
  unfold flushIf at hp
  split at hp
  · rename_i hc
    rcases List.mem_append.mp hp with h1 | h1
    · exact hb p h1
    · simp only [List.mem_singleton] at h1
      subst h1
      simp only [Bool.and_eq_true] at hc
      obtain ⟨⟨hc1, _⟩, _⟩ := hc
      obtain ⟨hgb, hnm⟩ := hcur hc1
      exact ⟨hgb, by simp only [hnm, Option.getD_some]⟩
  · exact hb p hp

theorem goodSt_step (st : ParseSt) (line : Str) (h : GoodSt st) :
    GoodSt (parseStepM3u st line) := by
  obtain ⟨hh, hb, hcur, hout⟩ := h
  unfold parseStepM3u
  by_cases he : ExtB line = true
  · rw [show hasPfx extinfPfx line = ExtB line from rfl, he, if_pos rfl]
    refine ⟨hh, flushIf_good ⟨hh, hb, hcur, hout⟩, ?_, by intro hf; cases hf⟩
    intro _
    exact ⟨⟨by simp, by simpa using he, by simp⟩, by simp⟩
  · rw [show hasPfx extinfPfx line = ExtB line from rfl]
    rw [if_neg (by simpa using he)]
    by_cases hi : st.inB = true
    · rw [if_pos hi]
      refine ⟨hh, hb, ?_, by intro hf; simp only at hf; rw [hi] at hf; cases hf⟩
      intro _
      obtain ⟨⟨hne, hhd, htl⟩, hnm⟩ := hcur hi
      cases hc : st.cur with
      | nil => exact absurd hc hne
      | cons c0 ct =>
        rw [hc] at hhd htl hnm
        refine ⟨⟨by simp, by simpa using hhd, ?_⟩, by simpa using hnm⟩
        intro l hl
        simp only [List.cons_append, List.tail_cons] at hl
        rcases List.mem_append.mp hl with h1 | h1
        · exact htl l (by simpa using h1)
        · simp only [List.mem_singleton] at h1
          subst h1
          simpa using he
    · rw [if_neg hi]
      simp only [Bool.not_eq_true] at hi
      obtain ⟨hc0, hb0⟩ := hout hi
      refine ⟨?_, hb, ?_, ?_⟩
      · intro l hl
        rcases List.mem_append.mp hl with h1 | h1
        · exact hh l h1
        · simp only [List.mem_singleton] at h1
          subst h1
          simpa using he
      · intro hf; simp only at hf; rw [hi] at hf; cases hf
      · intro _; exact ⟨hc0, hb0⟩

theorem goodSt_init : GoodSt ⟨[], [], [], none, false⟩ := by
  constructor
  · simp
  constructor
  · simp
  constructor
  · intro hf; cases hf
  · intro _; exact ⟨rfl, rfl⟩

theorem parse_good (lines : List Str) :
    (∀ l ∈ (parse_m3u_blocks lines).1, ExtB l = false) ∧
    (∀ p ∈ (parse_m3u_blocks lines).2, GoodNB p) := by
  unfold parse_m3u_blocks
  have hfin : GoodSt (lines.foldl parseStepM3u ⟨[], [], [], none, false⟩) :=
    foldl_preserves GoodSt parseStepM3u goodSt_step lines _ goodSt_init
  exact ⟨hfin.1, flushIf_good hfin⟩

theorem foldl_parse_header (h : List Str) (hh : ∀ l ∈ h, ExtB l = false) :
    ∀ (st : ParseSt), st.inB = false →
      List.foldl parseStepM3u st h =
        ⟨st.header ++ h, st.blocks, st.cur, st.curName, false⟩ := by
  induction h with
  | nil => intro st hi; cases st; simp only at hi; subst hi; simp
  | cons l t ih =>
    intro st hi
    have hl : ExtB l = false := hh l (by simp)
    have ht : ∀ x ∈ t, ExtB x = false := fun x hx => hh x (List.mem_cons_of_mem _ hx)
    simp only [List.foldl_cons]
    have hstep : parseStepM3u st l = ⟨st.header ++ [l], st.blocks, st.cur, st.curName, st.inB⟩ := by
      unfold parseStepM3u
      rw [show hasPfx extinfPfx l = ExtB l from rfl, hl]
      rw [if_neg (by simp)]
      rw [hi]
      rw [if_neg (by simp)]
    rw [hstep]
    rw [ih ht ⟨st.header ++ [l], st.blocks, st.cur, st.curName, st.inB⟩ (by simpa using hi)]
    simp [hi]

theorem foldl_parse_inblock (t : List Str) (ht : ∀ l ∈ t, ExtB l = false) :
    ∀ (st : ParseSt), st.inB = true →
      List.foldl parseStepM3u st t =
        ⟨st.header, st.blocks, st.cur ++ t, st.curName, true⟩ := by
  induction t with
  | nil => intro st hi; cases st; simp only at hi; subst hi; simp
  | cons l t2 ih =>
    intro st hi
    have hl : ExtB l = false := ht l (by simp)
    have ht2 : ∀ x ∈ t2, ExtB x = false := fun x hx => ht x (List.mem_cons_of_mem _ hx)
    simp only [List.foldl_cons]
    have hstep : parseStepM3u st l = ⟨st.header, st.blocks, st.cur ++ [l], st.curName, st.inB⟩ := by
      unfold parseStepM3u
      rw [show hasPfx extinfPfx l = ExtB l from rfl, hl]
      rw [if_neg (by simp)]
      rw [hi]
      rw [if_pos rfl]
    rw [hstep]
    rw [ih ht2 ⟨st.header, st.blocks, st.cur ++ [l], st.curName, st.inB⟩ (by simpa using hi)]
    simp [hi, List.append_assoc]

theorem foldl_parse_blocks (bs : List (List Str)) (hgb : ∀ b ∈ bs, GoodBlk b) :
    ∀ (st : ParseSt) (nm : Str), st.inB = true → st.cur ≠ [] → st.curName = some nm →
      flushIf (List.foldl parseStepM3u st bs.flatten)
          = st.blocks ++ (nm, st.cur) :: bs.map (fun b => (nameOf (b.headD []), b)) ∧
      (List.foldl parseStepM3u st bs.flatten).header = st.header := by
  induction bs with
  | nil =>
    intro st nm hi hc hn
    simp only [List.flatten_nil, List.foldl_nil, List.map_nil]
    refine ⟨?_, trivial⟩
    unfold flushIf
    rw [if_pos (by
      rw [hi, hn]
      simp only [Option.isSome_some, Bool.and_true, Bool.true_and]
      simpa using hc)]
    rw [hn]
    simp
  | cons b bs2 ih =>
    intro st nm hi hc hn
    obtain ⟨hbne, hbhd, hbtl⟩ := hgb b (by simp)
    have hgb2 : ∀ x ∈ bs2, GoodBlk x := fun x hx => hgb x (List.mem_cons_of_mem _ hx)
    cases hb : b with
    | nil => exact absurd hb hbne
    | cons b0 bt =>
      rw [hb] at hbhd hbtl
      simp only [List.headD_cons] at hbhd
      simp only [List.tail_cons] at hbtl
      simp only [List.flatten_cons, hb, List.cons_append, List.foldl_cons, List.foldl_append]
      have hflush : flushIf st = st.blocks ++ [(nm, st.cur)] := by
        unfold flushIf
        rw [if_pos (by
          rw [hi, hn]
          simp only [Option.isSome_some, Bool.and_true, Bool.true_and]
          simpa using hc)]
        rw [hn]
        simp
      have hstep : parseStepM3u st b0 =
          ⟨st.header, st.blocks ++ [(nm, st.cur)], [b0], some (nameOf b0), true⟩ := by
        unfold parseStepM3u
        rw [show hasPfx extinfPfx b0 = ExtB b0 from rfl, hbhd]
        rw [if_pos rfl, hflush]
      rw [hstep]
      rw [foldl_parse_inblock bt hbtl ⟨st.header, st.blocks ++ [(nm, st.cur)], [b0],
        some (nameOf b0), true⟩ rfl]
      have hrec := ih hgb2 ⟨st.header, st.blocks ++ [(nm, st.cur)], [b0] ++ bt,
        some (nameOf b0), true⟩ (nameOf b0) rfl (by simp) rfl
      refine ⟨?_, by simpa using hrec.2⟩
      rw [hrec.1]
      simp only [List.map_cons, List.headD_cons, List.singleton_append, List.append_assoc,
        List.cons_append, List.nil_append]

theorem parse_roundtrip (h : List Str) (bs : List (List Str))
    (hh : ∀ l ∈ h, ExtB l = false) (hgb : ∀ b ∈ bs, GoodBlk b) :
    parse_m3u_blocks (h ++ bs.flatten)
      = (h, bs.map (fun b => (nameOf (b.headD []), b))) := by
  unfold parse_m3u_blocks
  simp only [List.foldl_append]
  rw [foldl_parse_header h hh ⟨[], [], [], none, false⟩ rfl]
  cases bs with
  | nil =>
    simp only [List.flatten_nil, List.foldl_nil, List.map_nil]
    unfold flushIf
    simp
  | cons b bs2 =>
    obtain ⟨hbne, hbhd, hbtl⟩ := hgb b (by simp)
    cases hb : b with
    | nil => exact absurd hb hbne
    | cons b0 bt =>
      rw [hb] at hbhd hbtl
      simp only [List.headD_cons] at hbhd
      simp only [List.tail_cons] at hbtl
      have hgb2 : ∀ x ∈ bs2, GoodBlk x := fun x hx => hgb x (List.mem_cons_of_mem _ hx)
      simp only [List.flatten_cons, hb, List.cons_append, List.foldl_cons, List.foldl_append]
      have hstep : parseStepM3u ⟨[] ++ h, [], [], none, false⟩ b0 =
          ⟨h, [], [b0], some (nameOf b0), true⟩ := by
        unfold parseStepM3u
        rw [show hasPfx extinfPfx b0 = ExtB b0 from rfl, hbhd]
        rw [if_pos rfl]
        unfold flushIf
        simp
      rw [hstep]
      rw [foldl_parse_inblock bt hbtl ⟨h, [], [b0], some (nameOf b0), true⟩ rfl]
      have hrec := foldl_parse_blocks bs2 hgb2 ⟨h, [], [b0] ++ bt, some (nameOf b0), true⟩
        (nameOf b0) rfl (by simp) rfl
      rw [Prod.ext_iff]
      refine ⟨by simpa using hrec.2, ?_⟩
      simp only
      rw [hrec.1]
      simp [hb]

/-! ### Structural string lemmas -/

theorem hasPfx_iff {p s : Str} : hasPfx p s = true ↔ ∃ t, s = p ++ t := by
  induction p generalizing s with
  | nil => simp [hasPfx]
  | cons a ps ih =>
    cases s with
    | nil =>
      simp only [hasPfx, Bool.false_eq_true, false_iff]
      rintro ⟨t, ht⟩
      cases ht
    | cons c cs =>
      simp only [hasPfx, Bool.and_eq_true, beq_iff_eq]
      rw [ih]
      constructor
      · rintro ⟨he, t, ht⟩
        exact ⟨t, by rw [he, ht]; rfl⟩
      · rintro ⟨t, ht⟩
        simp only [List.cons_append, List.cons.injEq] at ht
        exact ⟨ht.1.symm, t, ht.2⟩

theorem hasPfx_append_of {p x : Str} (h : hasPfx p x = true) (y : Str) :
    hasPfx p (x ++ y) = true := by
  rw [hasPfx_iff] at h ⊢
  obtain ⟨t, ht⟩ := h
  exact ⟨t ++ y, by rw [ht, List.append_assoc]⟩

theorem dropWhile_head_false {p : Char → Bool} {t : Str} {c : Char} {r : Str}
    (h : t.dropWhile p = c :: r) : p c = false := by
  induction t with
  | nil => simp [List.dropWhile] at h
  | cons a t2 ih =>
    by_cases hp : p a = true
    · rw [List.dropWhile_cons_of_pos hp] at h
      exact ih h
    · rw [List.dropWhile_cons_of_neg (by simpa using hp)] at h
      injection h with h1 _
      subst h1
      simpa using hp

theorem dropWhile_ne_nil_of_exists {p : Char → Bool} {l : Str}
    (h : ∃ x ∈ l, p x = false) : l.dropWhile p ≠ [] := by
  induction l with
  | nil => simp at h
  | cons a t ih =>
    obtain ⟨x, hx, hpx⟩ := h
    by_cases hp : p a = true
    · rw [List.dropWhile_cons_of_pos hp]
      apply ih
      rcases List.mem_cons.mp hx with h1 | h1
      · subst h1; rw [hp] at hpx; cases hpx
      · exact ⟨x, h1, hpx⟩
    · rw [List.dropWhile_cons_of_neg (by simpa using hp)]
      simp

theorem pyStrip_cons_nonspace {c : Char} (hc : pySpace c = false) (zt : Str) :
    ∃ w, pyStrip (c :: zt) = c :: w := by
  unfold pyStrip pyLstrip pyRstrip
  rw [List.reverse_cons, List.dropWhile_append]
  by_cases he : (zt.reverse.dropWhile pySpace).isEmpty = true
  · rw [if_pos he]
    rw [List.dropWhile_cons_of_neg (by simpa using hc)]
    simp only [List.dropWhile_nil, List.reverse_cons, List.reverse_nil, List.nil_append]
    rw [List.dropWhile_cons_of_neg (by simpa using hc)]
    exact ⟨[], rfl⟩
  · rw [if_neg he]
    rw [List.reverse_append, List.reverse_cons, List.reverse_nil, List.nil_append,
      List.singleton_append]
    rw [List.dropWhile_cons_of_neg (by simpa using hc)]
    exact ⟨_, rfl⟩

theorem pyStrip_head_hash {l : Str} (h : hasPfx (str "#") l = true) :
    ∃ t, pyStrip l = '#' :: t := by
  rw [hasPfx_iff] at h
  obtain ⟨t, ht⟩ := h
  subst ht
  exact pyStrip_cons_nonspace (by decide) t

theorem takeWhile_sat {p : Char → Bool} {l : Str} : ∀ x ∈ l.takeWhile p, p x = true := by
  induction l with
  | nil => simp
  | cons a t ih =>
    by_cases hp : p a = true
    · rw [List.takeWhile_cons_of_pos hp]
      intro x hx
      rcases List.mem_cons.mp hx with h1 | h1
      · subst h1; exact hp
      · exact ih x h1
    · rw [List.takeWhile_cons_of_neg (by simpa using hp)]
      simp

theorem memChar_iff {c : Char} {l : Str} : memChar c l = true ↔ c ∈ l := by
  induction l with
  | nil => simp [memChar]
  | cons a t ih =>
    simp only [memChar, Bool.or_eq_true, beq_iff_eq, ih, List.mem_cons]
    constructor
    · rintro (h | h)
      · exact Or.inl h.symm
      · exact Or.inr h
    · rintro (h | h)
      · exact Or.inl h.symm
      · exact Or.inr h

theorem rpartition_found {l : Str} (h : memChar ',' l = true) :
    l = (rpartitionComma l).1 ++ ',' :: (rpartitionComma l).2.2 ∧
    (rpartitionComma l).2.1 = true ∧
    memChar ',' (rpartitionComma l).2.2 = false := by
  unfold rpartitionComma
  rw [if_pos h]
  simp only
  have hsplit := @List.takeWhile_append_dropWhile _ (fun c => !(c == ',')) l.reverse
  have hne : l.reverse.dropWhile (fun c => !(c == ',')) ≠ [] := by
    apply dropWhile_ne_nil_of_exists
    obtain hc := memChar_iff.mp h
    exact ⟨',', by simpa using hc, by simp⟩
  cases hd : l.reverse.dropWhile (fun c => !(c == ',')) with
  | nil => exact absurd hd hne
  | cons d r =>
    have hdc : d = ',' := by
      have := dropWhile_head_false hd
      simpa using this
    subst hdc
    rw [hd] at hsplit
    refine ⟨?_, trivial, ?_⟩
    · simp only [List.drop_succ_cons, List.drop_zero]
      conv_lhs => rw [← l.reverse_reverse, ← hsplit]
      simp [List.reverse_append]
    · have hnm : ',' ∉ (l.reverse.takeWhile fun c => !(c == ',')).reverse := by
        intro hmem
        have := takeWhile_sat ',' (List.mem_reverse.mp hmem)
        simp at this
      cases hmc : memChar ',' ((l.reverse.takeWhile fun c => !(c == ',')).reverse) with
      | false => rfl
      | true => exact absurd (memChar_iff.mp hmc) hnm

theorem takeWhile_append_sat {p : Char → Bool} {a b : Str} (ha : ∀ c ∈ a, p c = true) :
    (a ++ b).takeWhile p = a ++ b.takeWhile p := by
  induction a with
  | nil => simp
  | cons c t ih =>
    rw [List.cons_append, List.takeWhile_cons_of_pos (ha c (by simp)), List.cons_append,
      ih (fun x hx => ha x (List.mem_cons_of_mem _ hx))]

theorem dropWhile_append_sat {p : Char → Bool} {a b : Str} (ha : ∀ c ∈ a, p c = true) :
    (a ++ b).dropWhile p = b.dropWhile p := by
  induction a with
  | nil => simp
  | cons c t ih =>
    rw [List.cons_append, List.dropWhile_cons_of_pos (ha c (by simp)),
      ih (fun x hx => ha x (List.mem_cons_of_mem _ hx))]

theorem rpartition_append {x nm : Str} (h : memChar ',' nm = false) :
    rpartitionComma (x ++ ',' :: nm) = (x, true, nm) := by
  have hmem : memChar ',' (x ++ ',' :: nm) = true := by
    rw [memChar_iff]
    simp
  unfold rpartitionComma
  rw [if_pos hmem]
  have hnm : ∀ c ∈ nm.reverse, (fun c => !(c == ',')) c = true := by
    intro c hc
    simp only [Bool.not_eq_eq_eq_not, Bool.not_true, beq_eq_false_iff_ne, ne_eq]
    intro he
    subst he
    rw [show memChar ',' nm = true from memChar_iff.mpr (List.mem_reverse.mp hc)] at h
    cases h
  have hrev : (x ++ ',' :: nm).reverse = nm.reverse ++ ',' :: x.reverse := by
    simp [List.reverse_append]
  rw [hrev, takeWhile_append_sat hnm, dropWhile_append_sat hnm]
  rw [List.takeWhile_cons_of_neg (by simp), List.dropWhile_cons_of_neg (by simp)]
  simp

/-! ### `set_group_title_in_extinf` preserves the lead-line shape -/

theorem gtMatchAt_none_of_head {c : Char} (hc : (c == 'g') = false) (cs : Str) :
    gtMatchAt (c :: cs) = none := by
  unfold gtMatchAt
  rw [show matchPat (gtBase.map chEq) (c :: cs)
      = if chEq 'g' c then matchPat ((str "roup-title=\"").map chEq) cs else none from rfl]
  rw [if_neg (by simpa [chEq] using hc)]

theorem replaceAllGTFuel_pfx (g : Str) :
    ∀ (x : Str), (∀ c ∈ x, (c == 'g') = false) →
      ∀ (n : Nat) (s : Str), ∃ r, replaceAllGTFuel g n (x ++ s) = x ++ r := by
  intro x
  induction x with
  | nil => intro _ n s; exact ⟨replaceAllGTFuel g n s, rfl⟩
  | cons c t ih =>
    intro hx n s
    cases n with
    | zero => exact ⟨s, rfl⟩
    | succ m =>
      simp only [List.cons_append, replaceAllGTFuel, List.append_eq]
      rw [gtMatchAt_none_of_head (hx c (by simp)) (t ++ s)]
      obtain ⟨r, hr⟩ := ih (fun d hd => hx d (List.mem_cons_of_mem _ hd)) m s
      exact ⟨r, by rw [hr]⟩

theorem found_memChar {l : Str} (h : (rpartitionComma l).2.1 = true) :
    memChar ',' l = true := by
  by_cases hm : memChar ',' l = true
  · exact hm
  · unfold rpartitionComma at h
    rw [if_neg hm] at h
    cases h

theorem extinf_pfx_of_found {l : Str} (he : ExtB l = true)
    (hf : (rpartitionComma l).2.1 = true) :
    hasPfx extinfPfx (rpartitionComma l).1 = true := by
  obtain ⟨hsplit, _, _⟩ := rpartition_found (found_memChar hf)
  obtain ⟨t, ht⟩ := hasPfx_iff.mp he
  by_cases hlen : 7 ≤ (rpartitionComma l).1.length
  · rw [hasPfx_iff]
    have h7 : l.take 7 = extinfPfx := by
      rw [ht]
      rw [show (7 : Nat) = extinfPfx.length from rfl]
      simp
    have h7b : l.take 7 = (rpartitionComma l).1.take 7 := by
      conv_lhs => rw [hsplit]
      rw [List.take_append_eq_append_take]
      rw [show (rpartitionComma l).1.length = (rpartitionComma l).1.length from rfl]
      have : 7 - (rpartitionComma l).1.length = 0 := by omega
      rw [this]
      simp
    refine ⟨(rpartitionComma l).1.drop 7, ?_⟩
    conv_lhs => rw [← List.take_append_drop 7 (rpartitionComma l).1]
    rw [← h7b, h7]
  · exfalso
    have h7 : l.take 7 = extinfPfx := by
      rw [ht]
      rw [show (7 : Nat) = extinfPfx.length from rfl]
      simp
    have h1 : 1 ≤ 7 - (rpartitionComma l).1.length := by omega
    have hstep : List.take 7 l = (rpartitionComma l).1 ++
        List.take (7 - (rpartitionComma l).1.length) (',' :: (rpartitionComma l).2.2) := by
      conv_lhs => rw [hsplit]
      rw [List.take_append_eq_append_take]
      congr 1
      exact List.take_of_length_le (by omega)
    have hcm : ',' ∈ l.take 7 := by
      rw [hstep]
      rcases Nat.exists_eq_add_of_le h1 with ⟨k, hk⟩
      rw [hk]
      apply List.mem_append_right
      rw [Nat.add_comm 1 k, List.take_succ_cons]
      simp
    rw [h7] at hcm
    have : ',' ∉ extinfPfx := by decide
    exact this hcm

theorem setGT_ExtB {l g : Str} (he : ExtB l = true) :
    ExtB (set_group_title_in_extinf l g) = true := by
  unfold set_group_title_in_extinf
  by_cases hf : (rpartitionComma l).2.1 = true
  · rw [if_pos hf]
    have hpfx := extinf_pfx_of_found he hf
    apply hasPfx_append_of
    by_cases hcs : containsSub (rpartitionComma l).1 gtBase = true
    · rw [if_pos hcs]
      obtain ⟨t2, ht2⟩ := hasPfx_iff.mp hpfx
      unfold replaceAllGT
      rw [ht2]
      obtain ⟨r, hr⟩ := replaceAllGTFuel_pfx g extinfPfx (by decide)
        (extinfPfx ++ t2).length t2
      rw [hr]
      exact hasPfx_append_of (by rw [hasPfx_iff]; exact ⟨[], by simp⟩) r
    · rw [if_neg hcs]
      exact hasPfx_append_of hpfx _
  · rw [if_neg hf]
    exact he

theorem setGT_nameOf (l g : Str) :
    nameOf (set_group_title_in_extinf l g) = nameOf l := by
  unfold set_group_title_in_extinf
  by_cases hf : (rpartitionComma l).2.1 = true
  · rw [if_pos hf]
    obtain ⟨_, _, hnc⟩ := rpartition_found (found_memChar hf)
    unfold nameOf
    rw [rpartition_append hnc]
  · rw [if_neg hf]

/-! ### `transform_block` preserves the block shape -/

theorem ExtB_no_vlc {l : Str} (h : ExtB l = true) : hasPfx vlcoptPfx l = false := by
  obtain ⟨t, ht⟩ := hasPfx_iff.mp h
  subst ht
  rfl

theorem ExtB_no_http {l : Str} (h : ExtB l = true) : hasPfx exthttpPfx l = false := by
  obtain ⟨t, ht⟩ := hasPfx_iff.mp h
  subst ht
  rfl

theorem ExtB_cons_false {c : Char} (t : Str) (h : (c == '#') = false) :
    ExtB (c :: t) = false := by
  unfold ExtB
  rw [show hasPfx extinfPfx (c :: t)
      = (('#' == c) && hasPfx (str "EXTINF") t) from rfl]
  rw [show ('#' == c) = (c == '#') from by
    cases hc : c == '#'
    · simpa [beq_iff_eq] using fun he : '#' = c => by
        rw [he.symm] at hc
        simpa using hc
    · simp only [beq_iff_eq] at hc
      simp [hc]]
  rw [h]
  rfl

theorem isUrlLine_of_ExtB {l : Str} (h : ExtB l = true) : isUrlLine l = false := by
  have hh : hasPfx (str "#") l = true := by
    obtain ⟨t, ht⟩ := hasPfx_iff.mp h
    subst ht
    rfl
  obtain ⟨t2, ht2⟩ := pyStrip_head_hash hh
  unfold isUrlLine
  simp only [ht2]
  show (!List.isEmpty ('#' :: t2) && !hasPfx (str "#") ('#' :: t2)) = false
  rw [show hasPfx (str "#") ('#' :: t2) = true from rfl]
  simp

theorem findUrlIdx_sel : ∀ {src : List Str} {i : Nat},
    findUrlIdx src = some i → isUrlLine (src.getD i []) = true := by
  intro src
  induction src with
  | nil => intro i h; simp [findUrlIdx] at h
  | cons l t ih =>
    intro i h
    unfold findUrlIdx at h
    cases hf : findUrlIdx t with
    | some j =>
      rw [hf] at h
      simp only [Option.some.injEq] at h
      subst h
      simpa using ih hf
    | none =>
      rw [hf] at h
      by_cases hl : isUrlLine l = true
      · rw [if_pos hl] at h
        simp only [Option.some.injEq] at h
        subst h
        simpa using hl
      · rw [if_neg hl] at h
        cases h

theorem keepLines_cons {h : Str} {t : List Str} {uidx : Option Nat}
    (h1 : hasPfx vlcoptPfx h = false) (h2 : hasPfx exthttpPfx h = false)
    (h3 : ¬ uidx = some 0) :
    ∃ K, keepLines (h :: t) uidx = h :: K ∧ ∀ l ∈ K, l ∈ t := by
  unfold keepLines
  rw [show (h :: t).enum = (0, h) :: t.enumFrom 1 from rfl]
  rw [List.filter_cons_of_pos (by
    simp only [h1, h2, Bool.not_false, Bool.true_and]
    simpa using h3)]
  rw [List.map_cons]
  refine ⟨_, rfl, ?_⟩
  intro l hl
  rcases List.mem_map.mp hl with ⟨q, hq, he⟩
  subst he
  have hqe : q ∈ t.enumFrom 1 := List.mem_of_mem_filter hq
  have := List.enumFrom_map_snd 1 t
  rw [← this]
  exact List.mem_map.mpr ⟨q, hqe, rfl⟩

theorem findUrlIdx_cons_ne_zero {h : Str} {t : List Str} (hl : isUrlLine h = false) :
    ¬ findUrlIdx (h :: t) = some 0 := by
  unfold findUrlIdx
  cases hf : findUrlIdx t with
  | some j => simp
  | none => simp [hl]

theorem urlLineOf_shape {src : List Str} {url : Str} (h : urlLineOf src = some url) :
    ∃ c w, url = c :: w ∧ (c == '#') = false ∧ pySpace c = false := by
  unfold urlLineOf at h
  cases hf : findUrlIdx src with
  | none => rw [hf] at h; cases h
  | some i =>
    rw [hf] at h
    simp only [Option.some.injEq] at h
    subst h
    have hu := findUrlIdx_sel hf
    unfold isUrlLine at hu
    simp only [Bool.and_eq_true, Bool.not_eq_true'] at hu
    obtain ⟨hne, hph⟩ := hu
    cases hs : pyStrip (src.getD i []) with
    | nil => rw [hs] at hne; cases hne
    | cons c w =>
      refine ⟨c, w, rfl, ?_, ?_⟩
      · rw [hs] at hph
        rw [show hasPfx (str "#") (c :: w) = (('#' == c) && true) from rfl] at hph
        simp only [Bool.and_true] at hph
        cases hc : c == '#'
        · rfl
        · simp only [beq_iff_eq] at hc
          rw [hc] at hph
          simp at hph
      · unfold pyStrip pyLstrip at hs
        exact dropWhile_head_false hs

theorem sonyCut_shape : ∀ (s acc : Str), ∃ z, sonyCutAux acc s = acc.reverse ++ z ∧
    ∃ r, z ++ r = s := by
  intro s
  induction s with
  | nil => intro acc; exact ⟨[], by simp [sonyCutAux], [], rfl⟩
  | cons c cs ih =>
    intro acc
    unfold sonyCutAux
    cases hm : matchPat pipeCookiePat (c :: cs) with
    | some r0 => exact ⟨[], by simp, c :: cs, rfl⟩
    | none =>
      by_cases hq : (c == '?') = true
      · rw [if_pos hq]
        exact ⟨[], by simp, c :: cs, rfl⟩
      · rw [if_neg hq]
        obtain ⟨z, hz, r, hr⟩ := ih (c :: acc)
        refine ⟨c :: z, ?_, r, by rw [List.cons_append, hr]⟩
        rw [hz]
        simp

theorem base_sony_shape {c : Char} {w : Str} (hc : pySpace c = false) :
    base_sony (c :: w) = [] ∨ ∃ y, base_sony (c :: w) = c :: y := by
  unfold base_sony
  obtain ⟨z, hz, r, hr⟩ := sonyCut_shape (c :: w) []
  rw [hz]
  simp only [List.reverse_nil, List.nil_append]
  cases z with
  | nil => exact Or.inl rfl
  | cons d zt =>
    have hd : d = c := by
      rw [List.cons_append] at hr
      injection hr with h1 _
    subst hd
    obtain ⟨y, hy⟩ := pyStrip_cons_nonspace hc zt
    exact Or.inr ⟨y, hy⟩

theorem ExtB_buildCanonUrl_sony {src : List Str} {url ck : Str}
    (h : urlLineOf src = some url) : ExtB (buildCanonUrl (base_sony url) ck) = false := by
  obtain ⟨c, w, he, hch, hcs⟩ := urlLineOf_shape h
  subst he
  unfold buildCanonUrl
  rcases base_sony_shape hcs (w := w) with hb | ⟨y, hb⟩
  · rw [hb]
    simp only [List.nil_append]
    exact ExtB_cons_false _ (by decide)
  · rw [hb]
    rw [List.cons_append]
    exact ExtB_cons_false _ hch

theorem ExtB_mkVlc (ua : Str) : ExtB (mkVlcoptLine ua) = false := rfl

theorem ExtB_mkHttp (ck : Str) : ExtB (mkExthttpLine ck) = false := rfl

theorem shape_append {h x : Str} {nb : List Str}
    (hs : ∃ rest, nb = h :: rest ∧ ∀ l ∈ rest, ExtB l = false) (hx : ExtB x = false) :
    ∃ rest, nb ++ [x] = h :: rest ∧ ∀ l ∈ rest, ExtB l = false := by
  obtain ⟨rest, h1, h2⟩ := hs
  refine ⟨rest ++ [x], by rw [h1]; rfl, ?_⟩
  intro l hl
  rcases List.mem_append.mp hl with hm | hm
  · exact h2 l hm
  · simp only [List.mem_singleton] at hm
    subst hm
    exact hx

theorem rebuild_sony_shape {src : List Str} (hg : GoodBlk src) :
    ∃ rest, rebuildBlock src (resolveCred_sony src) base_sony true = src.headD [] :: rest ∧
      ∀ l ∈ rest, ExtB l = false := by
  obtain ⟨hne, hhd, htl⟩ := hg
  cases src with
  | nil => exact absurd rfl hne
  | cons h t =>
    simp only [List.headD_cons] at hhd ⊢
    simp only [List.tail_cons] at htl
    obtain ⟨K, hK, hKt⟩ := @keepLines_cons h t (findUrlIdx (h :: t)) (ExtB_no_vlc hhd)
      (ExtB_no_http hhd) (findUrlIdx_cons_ne_zero (isUrlLine_of_ExtB hhd))
    have hK0 : ∀ l ∈ K, ExtB l = false := fun l hl => htl l (hKt l hl)
    unfold rebuildBlock
    rw [hK]
    have s1 : ∃ rest, appendUA (h :: K) (resolveCred_sony (h :: t)) true = h :: rest ∧
        ∀ l ∈ rest, ExtB l = false := by
      unfold appendUA
      by_cases hc : optTruthy (resolveCred_sony (h :: t)).2 = true
      · rw [if_pos hc]
        exact shape_append ⟨K, rfl, hK0⟩ (ExtB_mkVlc _)
      · rw [if_neg hc]
        exact ⟨K, rfl, hK0⟩
    obtain ⟨r1, hr1, hr1f⟩ := s1
    rw [hr1]
    have s2 : ∃ rest, appendCk (h :: r1) (resolveCred_sony (h :: t)) = h :: rest ∧
        ∀ l ∈ rest, ExtB l = false := by
      unfold appendCk
      by_cases hc : optTruthy (resolveCred_sony (h :: t)).1 = true
      · rw [if_pos hc]
        exact shape_append ⟨r1, rfl, hr1f⟩ (ExtB_mkHttp _)
      · rw [if_neg hc]
        exact ⟨r1, rfl, hr1f⟩
    obtain ⟨r2, hr2, hr2f⟩ := s2
    rw [hr2]
    cases ht : mkTurl (h :: t) (resolveCred_sony (h :: t)) base_sony with
    | none => exact ⟨r2, rfl, hr2f⟩
    | some u =>
      have hu : ExtB u = false := by
        unfold mkTurl at ht
        cases hurl : urlLineOf (h :: t) with
        | none => rw [hurl] at ht; cases ht
        | some url =>
          rw [hurl] at ht
          replace ht : (if (optTruthy (resolveCred_sony (h :: t)).1 && !url.isEmpty) = true
              then some (buildCanonUrl (base_sony url) ((resolveCred_sony (h :: t)).1.getD []))
              else some url) = some u := ht
          split at ht
          · have heq := Option.some.inj ht
            subst heq
            exact ExtB_buildCanonUrl_sony hurl
          · have heq := Option.some.inj ht
            subst heq
            obtain ⟨c, w, he, hch, _⟩ := urlLineOf_shape hurl
            subst he
            exact ExtB_cons_false _ hch
      rw [show appendUrl (h :: r2) (some u)
          = if (!u.isEmpty) = true then (h :: r2) ++ [u] else (h :: r2) from rfl]
      by_cases he : (!u.isEmpty) = true
      · rw [if_pos he]
        exact shape_append ⟨r2, rfl, hr2f⟩ hu
      · rw [if_neg he]
        exact ⟨r2, rfl, hr2f⟩

theorem transform_sony_shape {src : List Str} (hg : GoodBlk src) :
    ∃ rest, transform_block_sony src = src.headD [] :: rest ∧ ∀ l ∈ rest, ExtB l = false := by
  unfold transform_block_sony
  rw [if_neg (by simpa using hg.1)]
  exact rebuild_sony_shape hg

theorem buildBlock_good {idx : List (Str × List Str)} {k g : Str} {B : List Str}
    (hl : lookupStr idx k = some B) (hg : GoodBlk B) :
    GoodBlk (buildBlock idx k g) ∧
    (buildBlock idx k g).headD [] = set_group_title_in_extinf (B.headD []) g := by
  unfold buildBlock
  rw [hl]
  simp only [Option.getD_some]
  obtain ⟨rest, hr, hrf⟩ := transform_sony_shape hg
  rw [hr]
  unfold updateHead
  refine ⟨⟨by simp, ?_, ?_⟩, by simp⟩
  · simpa using setGT_ExtB hg.2.1
  · simpa using hrf

/-! ### Keys and goodness through the merge -/

theorem buildBlock_key {idx : List (Str × List Str)} {k g : Str} {B : List Str}
    (hl : lookupStr idx k = some B) (hg : GoodBlk B)
    (hk : k = pyLower (nameOf (B.headD []))) :
    pyLower (nameOf ((buildBlock idx k g).headD [])) = k := by
  rw [(buildBlock_good hl hg).2, setGT_nameOf, hk]

theorem chanIdx_good {u : List Str} {k : Str} {B : List Str}
    (h : lookupStr (buildIndex (parse_m3u_blocks u).2) k = some B) :
    GoodBlk B ∧ k = pyLower (nameOf (B.headD [])) := by
  obtain ⟨n, hmem, hk⟩ := buildIndex_lookup_mem h
  obtain ⟨hgb, hname⟩ := (parse_good u).2 (n, B) hmem
  exact ⟨hgb, by rw [← hk]; simp only at hname; rw [hname]⟩

theorem memKey_of_mem {α : Type} {d : List (Str × α)} {k : Str} {v : α}
    (h : (k, v) ∈ d) : memKey d k = true := by
  induction d with
  | nil => simp at h
  | cons p t ih =>
    cases p with
    | mk k' v' =>
      rcases List.mem_cons.mp h with h1 | h1
      · injection h1 with e1 _
        subst e1
        simp [memKey, lookupStr]
      · unfold memKey lookupStr
        by_cases h2 : k' = k
        · simp [h2]
        · rw [if_neg h2]
          exact ih h1

theorem memKey_some {α : Type} {d : List (Str × α)} {k : Str}
    (h : memKey d k = true) : ∃ v, lookupStr d k = some v := by
  unfold memKey at h
  exact Option.isSome_iff_exists.mp h

theorem mergePass_good {cmap : List (Str × Str)} {idx : List (Str × List Str)}
    {bs : List (Str × List Str)}
    (hidx : ∀ k B, lookupStr idx k = some B → GoodBlk B)
    (hbs : ∀ p ∈ bs, GoodBlk p.2) (hnd : keysNodup cmap) :
    ∀ p ∈ mergePass cmap idx bs, GoodBlk p.2 := by
  rw [mergePass_eq _ _ _ hnd]
  intro p hp
  rcases List.mem_append.mp hp with h1 | h1
  · unfold walkSpec at h1
    rcases List.mem_map.mp h1 with ⟨q, hq, he⟩
    by_cases hm : blockMatchesB cmap idx q = true
    · rw [if_pos hm] at he
      subst he
      unfold blockMatchesB at hm
      simp only [Bool.and_eq_true] at hm
      obtain ⟨B, hB⟩ := memKey_some hm.2
      exact (buildBlock_good hB (hidx _ _ hB)).1
    · rw [if_neg hm] at he
      subst he
      exact hbs q hq
  · unfold appendSpec at h1
    rcases List.mem_map.mp h1 with ⟨q, hq, he⟩
    subst he
    have hq2 := List.of_mem_filter hq
    simp only [Bool.and_eq_true] at hq2
    obtain ⟨B, hB⟩ := memKey_some hq2.2
    exact (buildBlock_good hB (hidx _ _ hB)).1

theorem resolvedKeys_mem {cmap : List (Str × Str)} {idx : List (Str × List Str)}
    {blocks : List (Str × List Str)} {k : Str} :
    memStr k (resolvedKeys cmap idx blocks) = true ↔
      ∃ p ∈ blocks, blockMatchesB cmap idx p = true ∧ pyLower p.1 = k := by
  rw [memStr_iff]
  unfold resolvedKeys
  constructor
  · intro h
    rcases List.mem_map.mp h with ⟨q, hq, he⟩
    exact ⟨q, List.mem_of_mem_filter hq, List.of_mem_filter hq, he⟩
  · rintro ⟨p, hp, hm, hk⟩
    exact List.mem_map.mpr ⟨p, List.mem_filter.mpr ⟨hp, hm⟩, hk⟩

theorem ub_elem_cases {cmap : List (Str × Str)} {idx : List (Str × List Str)}
    {bs : List (Str × List Str)} (hnd : keysNodup cmap)
    (hidx : ∀ k B, lookupStr idx k = some B →
      GoodBlk B ∧ k = pyLower (nameOf (B.headD [])))
    (hbs : ∀ p ∈ bs, GoodNB p) :
    ∀ p ∈ mergePass cmap idx bs,
      (∃ k, memKey cmap k = true ∧ memKey idx k = true ∧
          p.2 = buildBlock idx k ((lookupStr cmap k).getD []) ∧
          pyLower (nameOf (p.2.headD [])) = k)
      ∨ (p ∈ bs ∧ blockMatchesB cmap idx p = false ∧ p.1 = nameOf (p.2.headD [])) := by
  rw [mergePass_eq _ _ _ hnd]
  intro p hp
  rcases List.mem_append.mp hp with h1 | h1
  · unfold walkSpec at h1
    rcases List.mem_map.mp h1 with ⟨q, hq, he⟩
    by_cases hm : blockMatchesB cmap idx q = true
    · rw [if_pos hm] at he
      subst he
      left
      have hm2 := hm
      unfold blockMatchesB at hm2
      simp only [Bool.and_eq_true] at hm2
      obtain ⟨B, hB⟩ := memKey_some hm2.2
      refine ⟨pyLower q.1, hm2.1, hm2.2, rfl, ?_⟩
      exact buildBlock_key hB (hidx _ _ hB).1 (hidx _ _ hB).2
    · rw [if_neg hm] at he
      subst he
      right
      exact ⟨hq, by simpa using hm, (hbs q hq).2⟩
  · unfold appendSpec at h1
    rcases List.mem_map.mp h1 with ⟨q, hq, he⟩
    subst he
    left
    have hq2 := List.of_mem_filter hq
    simp only [Bool.and_eq_true] at hq2
    have hqm : q ∈ cmap := List.mem_of_mem_filter hq
    obtain ⟨B, hB⟩ := memKey_some hq2.2
    have hlk : lookupStr cmap q.1 = some q.2 := mem_lookupStr_nodup hnd (by
      rcases q with ⟨qk, qv⟩
      exact hqm)
    refine ⟨q.1, memKey_of_mem (show (q.1, q.2) ∈ cmap from hqm), hq2.2, ?_, ?_⟩
    · simp only [hlk, Option.getD_some]
    · simp only
      exact buildBlock_key hB (hidx _ _ hB).1 (hidx _ _ hB).2

theorem resolved2_cover {cmap : List (Str × Str)} {idx : List (Str × List Str)}
    {bs : List (Str × List Str)} (hnd : keysNodup cmap)
    (hidx : ∀ k B, lookupStr idx k = some B →
      GoodBlk B ∧ k = pyLower (nameOf (B.headD [])))
    (hbs : ∀ p ∈ bs, GoodNB p) :
    ∀ k0 g0, (k0, g0) ∈ cmap → memKey idx k0 = true →
      memStr k0 (resolvedKeys cmap idx
        ((mergePass cmap idx bs).map (fun p => (nameOf (p.2.headD []), p.2)))) = true := by
  intro k0 g0 hkc hki
  rw [resolvedKeys_mem]
  obtain ⟨B, hB⟩ := memKey_some hki
  have hkey0 : pyLower (nameOf ((buildBlock idx k0 ((lookupStr cmap k0).getD [])).headD []))
      = k0 := buildBlock_key hB (hidx _ _ hB).1 (hidx _ _ hB).2
  have hkey1 : pyLower (nameOf ((buildBlock idx k0 g0).headD []))
      = k0 := by
    have hlk : lookupStr cmap k0 = some g0 := mem_lookupStr_nodup hnd hkc
    rw [show g0 = (lookupStr cmap k0).getD [] from by rw [hlk]; rfl]
    exact hkey0
  by_cases hex : ∃ q ∈ bs, pyLower q.1 = k0
  · obtain ⟨q, hq, hkey⟩ := hex
    have hm1 : blockMatchesB cmap idx q = true := by
      unfold blockMatchesB
      rw [hkey]
      simp [memKey_of_mem hkc, hki]
    have himg : (q.1, buildBlock idx (pyLower q.1) ((lookupStr cmap (pyLower q.1)).getD []))
        ∈ mergePass cmap idx bs := by
      rw [mergePass_eq _ _ _ hnd]
      apply List.mem_append_left
      unfold walkSpec
      refine List.mem_map.mpr ⟨q, hq, ?_⟩
      rw [if_pos hm1]
    refine ⟨(nameOf ((buildBlock idx (pyLower q.1)
        ((lookupStr cmap (pyLower q.1)).getD [])).headD []),
        buildBlock idx (pyLower q.1) ((lookupStr cmap (pyLower q.1)).getD [])),
      List.mem_map.mpr ⟨_, himg, rfl⟩, ?_, ?_⟩
    · unfold blockMatchesB
      simp only
      rw [hkey] at *
      rw [hkey0]
      simp [memKey_of_mem hkc, hki]
    · simp only
      rw [hkey] at *
      exact hkey0
  · have hnr : memStr k0 (resolvedKeys cmap idx bs) = false := by
      cases hmr : memStr k0 (resolvedKeys cmap idx bs) with
      | false => rfl
      | true =>
        obtain ⟨q, hq, _, hk⟩ := resolvedKeys_mem.mp hmr
        exact absurd ⟨q, hq, hk⟩ hex
    have himg : (nameOf ((buildBlock idx k0 g0).headD []), buildBlock idx k0 g0)
        ∈ mergePass cmap idx bs := by
      rw [mergePass_eq _ _ _ hnd]
      apply List.mem_append_right
      unfold appendSpec
      refine List.mem_map.mpr ⟨(k0, g0), List.mem_filter.mpr ⟨hkc, ?_⟩, rfl⟩
      simp [hnr, hki]
    refine ⟨(nameOf ((buildBlock idx k0 g0).headD []), buildBlock idx k0 g0),
      List.mem_map.mpr ⟨_, himg, rfl⟩, ?_, ?_⟩
    · unfold blockMatchesB
      simp only
      rw [hkey1]
      simp [memKey_of_mem hkc, hki]
    · simpa using hkey1

theorem mergePass_stable {cmap : List (Str × Str)} {idx : List (Str × List Str)}
    {bs : List (Str × List Str)} (hnd : keysNodup cmap)
    (hidx : ∀ k B, lookupStr idx k = some B →
      GoodBlk B ∧ k = pyLower (nameOf (B.headD [])))
    (hbs : ∀ p ∈ bs, GoodNB p) :
    (mergePass cmap idx
        ((mergePass cmap idx bs).map (fun p => (nameOf (p.2.headD []), p.2)))).map Prod.snd
      = (mergePass cmap idx bs).map Prod.snd := by
  rw [mergePass_eq cmap idx ((mergePass cmap idx bs).map (fun p => (nameOf (p.2.headD []), p.2))) hnd]
  have happend : appendSpec cmap idx
      ((mergePass cmap idx bs).map (fun p => (nameOf (p.2.headD []), p.2))) = [] := by
    unfold appendSpec
    rw [show (cmap.filter (fun p => !(memStr p.1 (resolvedKeys cmap idx
        ((mergePass cmap idx bs).map (fun p => (nameOf (p.2.headD []), p.2))))) &&
        memKey idx p.1)) = [] from ?_]
    · rfl
    · rw [List.filter_eq_nil_iff]
      intro p hp
      by_cases hki : memKey idx p.1 = true
      · rw [resolved2_cover hnd hidx hbs p.1 p.2 hp hki]
        simp
      · simp only [Bool.and_eq_true, not_and]
        intro _
        exact hki
  rw [happend, List.append_nil]
  unfold walkSpec
  rw [List.map_map, List.map_map]
  apply List.map_congr_left
  intro p hp
  rcases ub_elem_cases hnd hidx hbs p hp with ⟨k, hkc, hki, hpe, hkey⟩ | ⟨hpbs, hmf, hname⟩
  · simp only [Function.comp_apply]
    rw [show blockMatchesB cmap idx (nameOf (p.2.headD []), p.2)
        = (memKey cmap (pyLower (nameOf (p.2.headD []))) &&
           memKey idx (pyLower (nameOf (p.2.headD [])))) from rfl]
    rw [hkey, hkc, hki]
    simp only [Bool.and_self, if_true]
    exact hpe.symm

  · simp only [Function.comp_apply]
    rw [show blockMatchesB cmap idx (nameOf (p.2.headD []), p.2)
        = blockMatchesB cmap idx p from by
      unfold blockMatchesB
      rw [← hname]]
    rw [hmf]
    simp

theorem runSony_idem (u c L : List Str) : runSony u c (runSony u c L) = runSony u c L := by
  have hnd := buildChanMap_nodup (parse_channels_file c)
  have hidx : ∀ k B, lookupStr (buildIndex (parse_m3u_blocks u).2) k = some B →
      GoodBlk B ∧ k = pyLower (nameOf (B.headD [])) := fun k B h => chanIdx_good h
  have hgood1 := parse_good L
  have hH : ∀ l ∈ (if (parse_m3u_blocks L).1.isEmpty then [str "#EXTM3U"]
      else (parse_m3u_blocks L).1), ExtB l = false := by
    split
    · intro l hl
      simp only [List.mem_singleton] at hl
      subst hl
      rfl
    · exact hgood1.1
  have hHne : (if (parse_m3u_blocks L).1.isEmpty then [str "#EXTM3U"]
      else (parse_m3u_blocks L).1).isEmpty = false := by
    split
    · rfl
    · rename_i hcond
      simpa using hcond
  have hubgood : ∀ b ∈ ((mergePass (buildChanMap (parse_channels_file c))
      (buildIndex (parse_m3u_blocks u).2) (parse_m3u_blocks L).2).map Prod.snd), GoodBlk b := by
    intro b hb
    rcases List.mem_map.mp hb with ⟨p, hp, he⟩
    subst he
    exact mergePass_good (fun k B h => (hidx k B h).1) (fun q hq => (hgood1.2 q hq).1) hnd p hp
  have hreparse := parse_roundtrip
    (if (parse_m3u_blocks L).1.isEmpty then [str "#EXTM3U"] else (parse_m3u_blocks L).1)
    ((mergePass (buildChanMap (parse_channels_file c))
      (buildIndex (parse_m3u_blocks u).2) (parse_m3u_blocks L).2).map Prod.snd)
    hH hubgood
  conv_lhs => unfold runSony
  rw [show runSony u c L
      = (if (parse_m3u_blocks L).1.isEmpty then [str "#EXTM3U"] else (parse_m3u_blocks L).1) ++
        ((mergePass (buildChanMap (parse_channels_file c)) (buildIndex (parse_m3u_blocks u).2)
          (parse_m3u_blocks L).2).map Prod.snd).flatten from rfl]
  rw [hreparse]
  simp only [hHne, Bool.false_eq_true, if_false]
  rw [List.map_map]
  rw [show ((fun b => (nameOf (List.headD b []), b)) ∘ Prod.snd)
      = (fun p : Str × List Str => (nameOf (p.2.headD []), p.2)) from rfl]
  rw [mergePass_stable hnd hidx (fun q hq => hgood1.2 q hq)]

/-! ### Claim C2 -/

/-- C2: for a fixed upstream document and configuration, running the merge
pass a second time on the first run's serialized output writes byte-identical
text: the replaced content depends only on the upstream block and the
configured group, never on the local block or the run count. -/
theorem C2_second_run_byte_identical (u c L : List Str) :
    serializeM3u (runSony u c (runSony u c L)) = serializeM3u (runSony u c L) :=
  congrArg serializeM3u (runSony_idem u c L)

/-! ### Claim C8 (corrected) -/

/-- C8 counterexample: with an empty local header the merge does not keep the
header unchanged — it writes the extra line `#EXTM3U` in front, so the output
document's header is `["#EXTM3U"]` while the local document's header was
empty.  This refutes the claim's clause "including when the local document's
header is empty". -/
theorem C8_empty_header_counterexample :
    (parse_m3u_blocks (runSony [] [] [str "#EXTINF:-1,A", str "http://x"])).1
        = [str "#EXTM3U"] ∧
      (parse_m3u_blocks [str "#EXTINF:-1,A", str "http://x"]).1 = [] := by
  constructor <;> rfl

/-- C8 amended: when the local document's header is nonempty, the merge never
adds, removes or edits header lines — the output document reparses to exactly
the local header; an empty local header is replaced by the single default
line `#EXTM3U`. -/
theorem C8_header_preserved (u c L : List Str) (hne : (parse_m3u_blocks L).1 ≠ []) :
    (parse_m3u_blocks (runSony u c L)).1 = (parse_m3u_blocks L).1 := by
  have hnd := buildChanMap_nodup (parse_channels_file c)
  have hidx : ∀ k B, lookupStr (buildIndex (parse_m3u_blocks u).2) k = some B →
      GoodBlk B ∧ k = pyLower (nameOf (B.headD [])) := fun k B h => chanIdx_good h
  have hgood1 := parse_good L
  have hH : ∀ l ∈ (if (parse_m3u_blocks L).1.isEmpty then [str "#EXTM3U"]
      else (parse_m3u_blocks L).1), ExtB l = false := by
    split
    · intro l hl
      simp only [List.mem_singleton] at hl
      subst hl
      rfl
    · exact hgood1.1
  have hubgood : ∀ b ∈ ((mergePass (buildChanMap (parse_channels_file c))
      (buildIndex (parse_m3u_blocks u).2) (parse_m3u_blocks L).2).map Prod.snd), GoodBlk b := by
    intro b hb
    rcases List.mem_map.mp hb with ⟨p, hp, he⟩
    subst he
    exact mergePass_good (fun k B h => (hidx k B h).1) (fun q hq => (hgood1.2 q hq).1) hnd p hp
  have hreparse := parse_roundtrip
    (if (parse_m3u_blocks L).1.isEmpty then [str "#EXTM3U"] else (parse_m3u_blocks L).1)
    ((mergePass (buildChanMap (parse_channels_file c))
      (buildIndex (parse_m3u_blocks u).2) (parse_m3u_blocks L).2).map Prod.snd)
    hH hubgood
  rw [show runSony u c L
      = (if (parse_m3u_blocks L).1.isEmpty then [str "#EXTM3U"] else (parse_m3u_blocks L).1) ++
        ((mergePass (buildChanMap (parse_channels_file c)) (buildIndex (parse_m3u_blocks u).2)
          (parse_m3u_blocks L).2).map Prod.snd).flatten from rfl]
  rw [hreparse]
  simp only
  rw [if_neg (by simpa using hne)]

/-- Witness for C8 at a concrete document with a nonempty header. -/
theorem C8_header_preserved_witness :
    (parse_m3u_blocks (runSony [] [] [str "#EXTM3U", str "#EXTINF:-1,A", str "http://x"])).1
      = (parse_m3u_blocks [str "#EXTM3U", str "#EXTINF:-1,A", str "http://x"]).1 :=
  C8_header_preserved [] [] _ (by decide)

/-! ### Claim C9 -/

/-- C9: when the local playlist file is absent the run proceeds on the
one-line document `#EXTM3U` and the output is that header line followed by
every configured channel present in the upstream index, appended in
configuration order (keys absent from the upstream index are skipped). -/
theorem C9_missing_local_file (u c : List Str) :
    runSonyOpt u c none =
      str "#EXTM3U" ::
        (((buildChanMap (parse_channels_file c)).filter
            (fun p => memKey (buildIndex (parse_m3u_blocks u).2) p.1)).map
          (fun p => buildBlock (buildIndex (parse_m3u_blocks u).2) p.1 p.2)).flatten := by
  have hnd := buildChanMap_nodup (parse_channels_file c)
  unfold runSonyOpt localLinesOrDefault
  simp only [Option.getD_none]
  unfold runSony
  rw [show parse_m3u_blocks [str "#EXTM3U"] = ([str "#EXTM3U"], []) from rfl]
  simp only [List.isEmpty_cons, Bool.false_eq_true, if_false]
  rw [show mergePass (buildChanMap (parse_channels_file c))
      (buildIndex (parse_m3u_blocks u).2) []
      = (appendFold (buildChanMap (parse_channels_file c))
          (buildIndex (parse_m3u_blocks u).2) ([], [])).1 from rfl]
  rw [appendFold_fst _ _ hnd]
  rw [List.nil_append, List.map_map]
  rw [List.singleton_append]
  have hfil : (buildChanMap (parse_channels_file c)).filter
      (fun p => !(memStr p.1 ([] : List Str)) &&
        memKey (buildIndex (parse_m3u_blocks u).2) p.1)
      = (buildChanMap (parse_channels_file c)).filter
        (fun p => memKey (buildIndex (parse_m3u_blocks u).2) p.1) := by
    apply List.filter_congr
    intro q hq
    rw [show memStr q.1 [] = false from rfl]
    simp
  rw [hfil]
  rfl

/-! ### Substring lemmas for the group-title reader -/

theorem containsSub_of_hasPfx {s p : Str} (h : hasPfx p s = true) : containsSub s p = true := by
  cases s with
  | nil => simpa [containsSub] using h
  | cons c cs => simp [containsSub, h]

theorem containsSub_tail {c : Char} {cs p : Str} (h : containsSub cs p = true) :
    containsSub (c :: cs) p = true := by
  simp [containsSub, h]

theorem containsSub_append_left {a p : Str} (h : containsSub a p = true) (b : Str) :
    containsSub (a ++ b) p = true := by
  induction a with
  | nil =>
    simp only [containsSub] at h
    exact containsSub_of_hasPfx (hasPfx_append_of h b)
  | cons c cs ih =>
    simp only [containsSub, Bool.or_eq_true] at h
    rcases h with h1 | h1
    · simp only [List.cons_append, containsSub, Bool.or_eq_true]
      exact Or.inl (hasPfx_append_of h1 b)
    · simp only [List.cons_append, containsSub, Bool.or_eq_true]
      exact Or.inr (by simpa using ih h1)

theorem hasPfx_append_split {p a b : Str} (h : hasPfx p (a ++ b) = true) :
    hasPfx p a = true ∨ ∃ q, p = a ++ q ∧ hasPfx q b = true := by
  induction a generalizing p with
  | nil => exact Or.inr ⟨p, rfl, h⟩
  | cons x a2 ih =>
    cases p with
    | nil => exact Or.inl rfl
    | cons y p2 =>
      simp only [List.cons_append, hasPfx, Bool.and_eq_true, beq_iff_eq] at h ⊢
      obtain ⟨he, h2⟩ := h
      rcases ih h2 with h3 | ⟨q, hq, hb⟩
      · exact Or.inl ⟨he, h3⟩
      · exact Or.inr ⟨q, by rw [hq, he], hb⟩

theorem matchPat_lit {x : Str} : ∀ {s r : Str}, matchPat (x.map chEq) s = some r → s = x ++ r := by
  induction x with
  | nil =>
    intro s r h
    simp only [List.map_nil, matchPat, Option.some.injEq] at h
    subst h
    rfl
  | cons a x2 ih =>
    intro s r h
    cases s with
    | nil => simp [matchPat] at h
    | cons c cs =>
      simp only [List.map_cons, matchPat] at h
      split at h
      · rename_i hc
        have := ih h
        subst this
        simp only [chEq, beq_iff_eq] at hc
        rw [hc]
        rfl
      · cases h

theorem matchPat_lit_self (x r : Str) : matchPat (x.map chEq) (x ++ r) = some r := by
  induction x with
  | nil => rfl
  | cons a x2 ih =>
    simp only [List.map_cons, List.cons_append, matchPat]
    rw [if_pos (by simp [chEq])]
    exact ih

theorem gtCapAt_hasPfx {s v : Str} (h : gtCapAt s = some v) : hasPfx gtBase s = true := by
  unfold gtCapAt at h
  cases hm : matchPat (gtBase.map chEq) s with
  | none => rw [hm] at h; cases h
  | some r =>
    have := matchPat_lit hm
    rw [hasPfx_iff]
    exact ⟨r, this⟩

theorem gtCapAt_none_of_head {c : Char} (hc : (c == 'g') = false) (cs : Str) :
    gtCapAt (c :: cs) = none := by
  unfold gtCapAt
  rw [show matchPat (gtBase.map chEq) (c :: cs)
      = if chEq 'g' c then matchPat ((str "roup-title=\"").map chEq) cs else none from rfl]
  rw [if_neg (by simpa [chEq] using hc)]

theorem getGT_skip {pre : Str} (hpre : containsSub pre gtBase = false) :
    ∀ {sfx : Str}, sfx.headD 'x' = ' ' → getGT (pre ++ sfx) = getGT sfx := by
  induction pre with
  | nil => intro sfx _; rfl
  | cons c cs ih =>
    intro sfx hsp
    have hdef : containsSub (c :: cs) gtBase
        = (hasPfx gtBase (c :: cs) || containsSub cs gtBase) := rfl
    rw [hdef] at hpre
    have hp1 : hasPfx gtBase (c :: cs) = false := by
      cases hx : hasPfx gtBase (c :: cs)
      · rfl
      · rw [hx] at hpre; simp at hpre
    have hp2 : containsSub cs gtBase = false := by
      cases hx : containsSub cs gtBase
      · rfl
      · rw [hx] at hpre; simp at hpre
    have hcap : gtCapAt (c :: (cs ++ sfx)) = none := by
      cases hx : gtCapAt (c :: (cs ++ sfx)) with
      | none => rfl
      | some v =>
        exfalso
        have hpp := gtCapAt_hasPfx hx
        rw [show (c :: (cs ++ sfx)) = (c :: cs) ++ sfx from rfl] at hpp
        rcases hasPfx_append_split hpp with h1 | ⟨q, hq, hb⟩
        · rw [h1] at hp1; cases hp1
        · cases q with
          | nil =>
            rw [List.append_nil] at hq
            rw [hq] at hp1
            rw [show hasPfx (c :: cs) (c :: cs) = true from by
              rw [hasPfx_iff]; exact ⟨[], by simp⟩] at hp1
            cases hp1
          | cons d q2 =>
            cases sfx with
            | nil => simp [hasPfx] at hb
            | cons e sfx2 =>
              simp only [List.headD_cons] at hsp
              subst hsp
              simp only [hasPfx, Bool.and_eq_true, beq_iff_eq] at hb
              have hd : d ∈ gtBase := by
                rw [hq]
                simp
              rw [hb.1] at hd
              have : ' ' ∉ gtBase := by decide
              exact this hd
    show getGT (c :: (cs ++ sfx)) = getGT sfx
    rw [show getGT (c :: (cs ++ sfx))
        = (match gtCapAt (c :: (cs ++ sfx)) with
           | some v => some v
           | none => getGT (cs ++ sfx)) from rfl]
    rw [hcap]
    exact ih hp2 hsp

theorem getGT_at_base {G rest : Str} (hG : memChar '"' G = false) :
    getGT (gtBase ++ (G ++ '"' :: rest)) = some G := by
  have hGsat : ∀ c ∈ G, (fun c => !(c == '"')) c = true := by
    intro c hc
    simp only [Bool.not_eq_eq_eq_not, Bool.not_true, beq_eq_false_iff_ne, ne_eq]
    intro he
    subst he
    rw [memChar_iff.mpr hc] at hG
    cases hG
  have hcap : gtCapAt (gtBase ++ (G ++ '"' :: rest)) = some G := by
    have h1 : matchPat (gtBase.map chEq) (gtBase ++ (G ++ '"' :: rest))
        = some (G ++ '"' :: rest) := matchPat_lit_self _ _
    rw [show gtCapAt (gtBase ++ (G ++ '"' :: rest))
        = (match matchPat (gtBase.map chEq) (gtBase ++ (G ++ '"' :: rest)) with
           | none => none
           | some r =>
             if (r.dropWhile (fun c => !(c == '"'))).headD ' ' == '"' then
               some (r.takeWhile (fun c => !(c == '"')))
             else none) from rfl]
    rw [h1]
    show (if ((G ++ '"' :: rest).dropWhile (fun c => !(c == '"'))).headD ' ' == '"' then
        some ((G ++ '"' :: rest).takeWhile (fun c => !(c == '"')))
      else none) = some G
    rw [takeWhile_append_sat hGsat, dropWhile_append_sat hGsat]
    rw [List.takeWhile_cons_of_neg (by simp), List.dropWhile_cons_of_neg (by simp)]
    simp
  rw [show getGT (gtBase ++ (G ++ '"' :: rest))
      = (match gtCapAt ('g' :: (str "roup-title=\"" ++ (G ++ '"' :: rest))) with
         | some v => some v
         | none => getGT (str "roup-title=\"" ++ (G ++ '"' :: rest))) from rfl]
  rw [show gtCapAt ('g' :: (str "roup-title=\"" ++ (G ++ '"' :: rest)))
      = gtCapAt (gtBase ++ (G ++ '"' :: rest)) from rfl]
  rw [hcap]


theorem getGT_setGT {l G : Str} (hcm : memChar ',' l = true)
    (hng : containsSub l gtBase = false) (hG : memChar '"' G = false) :
    getGT (set_group_title_in_extinf l G) = some G := by
  unfold set_group_title_in_extinf
  have hf : (rpartitionComma l).2.1 = true := by
    unfold rpartitionComma
    rw [if_pos hcm]
  rw [if_pos hf]
  obtain ⟨hsplit, _, hnc⟩ := rpartition_found hcm
  have hpre : containsSub (rpartitionComma l).1 gtBase = false := by
    cases hx : containsSub (rpartitionComma l).1 gtBase
    · rfl
    · exfalso
      have h2 := containsSub_append_left hx (',' :: (rpartitionComma l).2.2)
      rw [← hsplit] at h2
      rw [h2] at hng
      cases hng
  rw [if_neg (by simp [hpre])]
  have hassoc : ((rpartitionComma l).1 ++ (str " group-title=\"" ++ G ++ ['"'])) ++
      ',' :: (rpartitionComma l).2.2
      = (rpartitionComma l).1 ++
        (' ' :: (gtBase ++ (G ++ '"' :: ',' :: (rpartitionComma l).2.2))) := by
    rw [show str " group-title=\"" = ' ' :: gtBase from rfl]
    simp [List.append_assoc]
  rw [hassoc]
  rw [getGT_skip hpre (by simp)]
  rw [show getGT (' ' :: (gtBase ++ (G ++ '"' :: ',' :: (rpartitionComma l).2.2)))
      = (match gtCapAt (' ' :: (gtBase ++ (G ++ '"' :: ',' :: (rpartitionComma l).2.2))) with
         | some v => some v
         | none => getGT (gtBase ++ (G ++ '"' :: ',' :: (rpartitionComma l).2.2))) from rfl]
  rw [gtCapAt_none_of_head (by decide) _]
  exact getGT_at_base hG

theorem gtMatchAt_hasPfx {s r : Str} (h : gtMatchAt s = some r) : hasPfx gtBase s = true := by
  unfold gtMatchAt at h
  cases hm : matchPat (gtBase.map chEq) s with
  | none => rw [hm] at h; cases h
  | some r2 =>
    rw [hasPfx_iff]
    exact ⟨r2, matchPat_lit hm⟩

theorem getGT_skip2 {pre : Str} (hpre : containsSub pre gtBase = false) :
    ∀ {sfx : Str}, memChar (sfx.headD 'x') (str "roup-title=\"") = false →
      getGT (pre ++ sfx) = getGT sfx := by
  induction pre with
  | nil => intro sfx _; rfl
  | cons c cs ih =>
    intro sfx hsp
    have hdef : containsSub (c :: cs) gtBase
        = (hasPfx gtBase (c :: cs) || containsSub cs gtBase) := rfl
    rw [hdef] at hpre
    have hp1 : hasPfx gtBase (c :: cs) = false := by
      cases hx : hasPfx gtBase (c :: cs)
      · rfl
      · rw [hx] at hpre; simp at hpre
    have hp2 : containsSub cs gtBase = false := by
      cases hx : containsSub cs gtBase
      · rfl
      · rw [hx] at hpre; simp at hpre
    have hcap : gtCapAt (c :: (cs ++ sfx)) = none := by
      cases hx : gtCapAt (c :: (cs ++ sfx)) with
      | none => rfl
      | some v =>
        exfalso
        have hpp := gtCapAt_hasPfx hx
        rw [show (c :: (cs ++ sfx)) = (c :: cs) ++ sfx from rfl] at hpp
        rcases hasPfx_append_split hpp with h1 | ⟨q, hq, hb⟩
        · rw [h1] at hp1; cases hp1
        · cases q with
          | nil =>
            rw [List.append_nil] at hq
            rw [hq] at hp1
            rw [show hasPfx (c :: cs) (c :: cs) = true from by
              rw [hasPfx_iff]; exact ⟨[], by simp⟩] at hp1
            cases hp1
          | cons d q2 =>
            cases sfx with
            | nil => simp [hasPfx] at hb
            | cons e sfx2 =>
              simp only [List.headD_cons] at hsp
              simp only [hasPfx, Bool.and_eq_true, beq_iff_eq] at hb
              have hq2 : str "roup-title=\"" = cs ++ d :: q2 := by
                have hgg : ('g' :: str "roup-title=\"" : Str) = c :: (cs ++ d :: q2) := by
                  rw [show ('g' :: str "roup-title=\"" : Str) = gtBase from rfl, hq]
                  rfl
                injection hgg with hg1 hg2
              have hd : d ∈ str "roup-title=\"" := by
                rw [hq2]
                simp
              rw [hb.1] at hd
              rw [memChar_iff.mpr hd] at hsp
              cases hsp
    show getGT (c :: (cs ++ sfx)) = getGT sfx
    rw [show getGT (c :: (cs ++ sfx))
        = (match gtCapAt (c :: (cs ++ sfx)) with
           | some v => some v
           | none => getGT (cs ++ sfx)) from rfl]
    rw [hcap]
    exact ih hp2 hsp

theorem replaceAll_shape (G : Str) : ∀ (n : Nat) (s : Str), s.length ≤ n →
    containsSub s gtBase = true → gtFirstClosed s = true →
    ∃ pre tail w, replaceAllGTFuel G n s = pre ++ (gtBase ++ (G ++ '"' :: tail)) ∧
      containsSub pre gtBase = false ∧ pre ++ w = s := by
  intro n
  induction n with
  | zero =>
    intro s hl hcs hcl
    cases s with
    | nil => rw [show containsSub [] gtBase = false from rfl] at hcs; cases hcs
    | cons c cs => simp at hl
  | succ n ih =>
    intro s hl hcs hcl
    cases s with
    | nil => rw [show containsSub [] gtBase = false from rfl] at hcs; cases hcs
    | cons c cs =>
      by_cases hp : hasPfx gtBase (c :: cs) = true
      · have hcl2 : (gtMatchAt (c :: cs)).isSome = true := by
          unfold gtFirstClosed at hcl
          rw [if_pos hp] at hcl
          exact hcl
        cases hm : gtMatchAt (c :: cs) with
        | none => rw [hm] at hcl2; cases hcl2
        | some rest =>
          refine ⟨[], replaceAllGTFuel G n rest, c :: cs, ?_, rfl, rfl⟩
          rw [show replaceAllGTFuel G (n + 1) (c :: cs)
              = (match gtMatchAt (c :: cs) with
                 | some rest => (gtBase ++ G ++ ['"']) ++ replaceAllGTFuel G n rest
                 | none => c :: replaceAllGTFuel G n cs) from rfl]
          rw [hm]
          simp [List.append_assoc]
      · have hpf : hasPfx gtBase (c :: cs) = false := by
          cases hx : hasPfx gtBase (c :: cs)
          · rfl
          · exact absurd hx hp
        have hm : gtMatchAt (c :: cs) = none := by
          cases hx : gtMatchAt (c :: cs) with
          | none => rfl
          | some r => exact absurd (gtMatchAt_hasPfx hx) hp
        have hcs2 : containsSub cs gtBase = true := by
          rw [show containsSub (c :: cs) gtBase
              = (hasPfx gtBase (c :: cs) || containsSub cs gtBase) from rfl] at hcs
          rw [hpf] at hcs
          simpa using hcs
        have hcl2 : gtFirstClosed cs = true := by
          unfold gtFirstClosed at hcl
          rw [if_neg hp] at hcl
          exact hcl
        have hlen : cs.length ≤ n := by
          simp only [List.length_cons] at hl
          omega
        obtain ⟨pre, tail, w, hsh, hpre, hw⟩ := ih cs hlen hcs2 hcl2
        refine ⟨c :: pre, tail, w, ?_, ?_, ?_⟩
        · rw [show replaceAllGTFuel G (n + 1) (c :: cs)
              = (match gtMatchAt (c :: cs) with
                 | some rest => (gtBase ++ G ++ ['"']) ++ replaceAllGTFuel G n rest
                 | none => c :: replaceAllGTFuel G n cs) from rfl]
          rw [hm, hsh]
          rfl
        · rw [show containsSub (c :: pre) gtBase
              = (hasPfx gtBase (c :: pre) || containsSub pre gtBase) from rfl]
          have hpf2 : hasPfx gtBase (c :: pre) = false := by
            cases hx : hasPfx gtBase (c :: pre) with
            | false => rfl
            | true =>
              exfalso
              have hxx := hasPfx_append_of hx w
              rw [show (c :: pre) ++ w = c :: (pre ++ w) from rfl] at hxx
              rw [hw] at hxx
              exact hp hxx
          rw [hpf2, hpre]
          rfl
        · rw [show (c :: pre) ++ w = c :: (pre ++ w) from rfl, hw]

theorem getGT_replaceAll {s G : Str} (Z : Str) (hcs : containsSub s gtBase = true)
    (hcl : gtFirstClosed s = true) (hG : memChar '"' G = false) :
    getGT (replaceAllGT G s ++ Z) = some G := by
  obtain ⟨pre, tail, w, hsh, hpre, hw⟩ :=
    replaceAll_shape G s.length s (Nat.le_refl _) hcs hcl
  unfold replaceAllGT
  rw [hsh]
  rw [List.append_assoc]
  have hsp : memChar (((gtBase ++ (G ++ '"' :: tail)) ++ Z).headD 'x')
      (str "roup-title=\"") = false := by
    rw [show ((gtBase ++ (G ++ '"' :: tail)) ++ Z).headD 'x' = 'g' from rfl]
    decide
  rw [getGT_skip2 hpre hsp]
  rw [show (gtBase ++ (G ++ '"' :: tail)) ++ Z
      = gtBase ++ (G ++ '"' :: (tail ++ Z)) from by simp]
  exact getGT_at_base hG

theorem getGT_setGT2 {l G : Str} (hcm : memChar ',' l = true)
    (hG : memChar '"' G = false)
    (hcl : gtFirstClosed (rpartitionComma l).1 = true) :
    getGT (set_group_title_in_extinf l G) = some G := by
  unfold set_group_title_in_extinf
  have hf : (rpartitionComma l).2.1 = true := by
    unfold rpartitionComma
    rw [if_pos hcm]
  rw [if_pos hf]
  by_cases hx : containsSub (rpartitionComma l).1 gtBase = true
  · rw [if_pos hx]
    exact getGT_replaceAll (',' :: (rpartitionComma l).2.2) hx hcl hG
  · have hx2 : containsSub (rpartitionComma l).1 gtBase = false := by
      cases hy : containsSub (rpartitionComma l).1 gtBase with
      | false => rfl
      | true => exact absurd hy hx
    rw [if_neg (by simp [hx2])]
    have hassoc : ((rpartitionComma l).1 ++ (str " group-title=\"" ++ G ++ ['"'])) ++
        ',' :: (rpartitionComma l).2.2
        = (rpartitionComma l).1 ++
          (' ' :: (gtBase ++ (G ++ '"' :: ',' :: (rpartitionComma l).2.2))) := by
      rw [show str " group-title=\"" = ' ' :: gtBase from rfl]
      simp [List.append_assoc]
    rw [hassoc]
    rw [getGT_skip hx2 (by simp)]
    rw [show getGT (' ' :: (gtBase ++ (G ++ '"' :: ',' :: (rpartitionComma l).2.2)))
        = (match gtCapAt (' ' :: (gtBase ++ (G ++ '"' :: ',' :: (rpartitionComma l).2.2))) with
           | some v => some v
           | none => getGT (gtBase ++ (G ++ '"' :: ',' :: (rpartitionComma l).2.2))) from rfl]
    rw [gtCapAt_none_of_head (by decide) _]
    exact getGT_at_base hG

/-! ### Counting blocks per key through a merge pass -/

theorem countKey_append {a b : List (Str × List Str)} {k : Str} :
    countKey (a ++ b) k = countKey a k + countKey b k := by
  unfold countKey
  rw [List.filter_append, List.length_append]

theorem countKey_map {f : (Str × List Str) → (Str × List Str)}
    {l : List (Str × List Str)} {k : Str}
    (hf : ∀ q ∈ l, pyLower ((f q).1) = pyLower q.1) :
    countKey (l.map f) k = countKey l k := by
  induction l with
  | nil => rfl
  | cons q t ih =>
    unfold countKey at *
    simp only [List.map_cons, List.filter_cons]
    have hq := hf q (by simp)
    rw [hq]
    by_cases hk : pyLower q.1 = k
    · rw [if_pos (by simpa using hk), if_pos (by simpa using hk)]
      simp only [List.length_cons]
      rw [ih (fun r hr => hf r (List.mem_cons_of_mem _ hr))]
    · rw [if_neg (by simpa using hk), if_neg (by simpa using hk)]
      exact ih (fun r hr => hf r (List.mem_cons_of_mem _ hr))

theorem countKey_zero_iff {bs : List (Str × List Str)} {k : Str} :
    countKey bs k = 0 ↔ ∀ q ∈ bs, ¬ pyLower q.1 = k := by
  unfold countKey
  rw [List.length_eq_zero, List.filter_eq_nil_iff]
  constructor
  · intro h q hq hk
    exact h q hq (by simpa using hk)
  · intro h q hq hk
    exact h q hq (by simpa using hk)

theorem countKey_ne_zero {bs : List (Str × List Str)} {k : Str} {q : Str × List Str}
    (hq : q ∈ bs) (hk : pyLower q.1 = k) : ¬ countKey bs k = 0 := by
  intro h
  exact countKey_zero_iff.mp h q hq hk

theorem filter_key_nodup {α : Type} {d : List (Str × α)} {k : Str} {v : α}
    (hnd : keysNodup d) (hl : lookupStr d k = some v) :
    d.filter (fun p => decide (p.1 = k)) = [(k, v)] := by
  induction d with
  | nil => simp [lookupStr] at hl
  | cons p t ih =>
    cases p with
    | mk k' v' =>
      simp only [keysNodup, List.map_cons, List.nodup_cons] at hnd
      simp only [lookupStr] at hl
      by_cases h1 : k' = k
      · rw [if_pos h1] at hl
        simp only [Option.some.injEq] at hl
        subst h1
        subst hl
        rw [List.filter_cons_of_pos (by simp)]
        rw [show t.filter (fun p => decide (p.1 = k')) = [] from ?_]
        · rw [List.filter_eq_nil_iff]
          intro q hq
          simp only [decide_eq_true_eq]
          intro he
          exact hnd.1 (List.mem_map.mpr ⟨q, hq, he⟩)
      · rw [if_neg h1] at hl
        rw [List.filter_cons_of_neg (by simpa using h1)]
        exact ih hnd.2 hl

theorem countKey_mk_map {idx : List (Str × List Str)} {A : List (Str × Str)} {k : Str}
    (hA : ∀ p ∈ A, pyLower (nameOf ((buildBlock idx p.1 p.2).headD [])) = p.1) :
    countKey (A.map (fun p => (nameOf ((buildBlock idx p.1 p.2).headD []),
        buildBlock idx p.1 p.2))) k
      = (A.filter (fun p => decide (p.1 = k))).length := by
  induction A with
  | nil => rfl
  | cons p t ih =>
    unfold countKey at *
    simp only [List.map_cons, List.filter_cons]
    rw [hA p (by simp)]
    by_cases hk : p.1 = k
    · rw [if_pos (by simpa using hk), if_pos (by simpa using hk)]
      simp only [List.length_cons]
      rw [ih (fun r hr => hA r (List.mem_cons_of_mem _ hr))]
    · rw [if_neg (by simpa using hk), if_neg (by simpa using hk)]
      exact ih (fun r hr => hA r (List.mem_cons_of_mem _ hr))

theorem countKey_mergePass {cmap : List (Str × Str)} {idx bs : List (Str × List Str)}
    {k G : Str} (hnd : keysNodup cmap)
    (hidx : ∀ k B, lookupStr idx k = some B → GoodBlk B ∧ k = pyLower (nameOf (B.headD [])))
    (hbs : ∀ p ∈ bs, GoodNB p)
    (hmk : lookupStr cmap k = some G) (hik : memKey idx k = true) :
    countKey ((mergePass cmap idx bs).map (fun p => (nameOf (p.2.headD []), p.2))) k
      = countKey bs k + (if countKey bs k = 0 then 1 else 0) := by
  have hkc : memKey cmap k = true := by unfold memKey; rw [hmk]; rfl
  rw [mergePass_eq _ _ _ hnd, List.map_append, countKey_append]
  have hwalk : countKey ((walkSpec cmap idx bs).map
      (fun p => (nameOf (p.2.headD []), p.2))) k = countKey bs k := by
    unfold walkSpec
    rw [List.map_map]
    apply countKey_map
    intro q hq
    simp only [Function.comp_apply]
    by_cases hm : blockMatchesB cmap idx q = true
    · rw [if_pos hm]
      have hm2 := hm
      unfold blockMatchesB at hm2
      simp only [Bool.and_eq_true] at hm2
      obtain ⟨B, hB⟩ := memKey_some hm2.2
      exact buildBlock_key hB (hidx _ _ hB).1 (hidx _ _ hB).2
    · rw [if_neg hm]
      show pyLower (nameOf (q.2.headD [])) = pyLower q.1
      rw [← (hbs q hq).2]
  have happ : countKey ((appendSpec cmap idx bs).map
      (fun p => (nameOf (p.2.headD []), p.2))) k = (if countKey bs k = 0 then 1 else 0) := by
    unfold appendSpec
    rw [List.map_map]
    have hα : ∀ p ∈ cmap.filter (fun p => !(memStr p.1 (resolvedKeys cmap idx bs)) &&
        memKey idx p.1), pyLower (nameOf ((buildBlock idx p.1 p.2).headD [])) = p.1 := by
      intro p hp
      have hp2 := List.of_mem_filter hp
      simp only [Bool.and_eq_true] at hp2
      obtain ⟨B, hB⟩ := memKey_some hp2.2
      exact buildBlock_key hB (hidx _ _ hB).1 (hidx _ _ hB).2
    rw [show countKey ((cmap.filter (fun p => !(memStr p.1 (resolvedKeys cmap idx bs)) &&
        memKey idx p.1)).map ((fun p : Str × List Str => (nameOf (p.2.headD []), p.2)) ∘
        (fun p => (nameOf ((buildBlock idx p.1 p.2).headD []), buildBlock idx p.1 p.2)))) k
        = countKey ((cmap.filter (fun p => !(memStr p.1 (resolvedKeys cmap idx bs)) &&
          memKey idx p.1)).map
          (fun p => (nameOf ((buildBlock idx p.1 p.2).headD []), buildBlock idx p.1 p.2))) k
        from rfl]
    rw [countKey_mk_map hα]
    rw [List.filter_filter]
    have hswap : cmap.filter (fun a => decide (a.1 = k) &&
        (!(memStr a.1 (resolvedKeys cmap idx bs)) && memKey idx a.1))
        = (cmap.filter (fun p => decide (p.1 = k))).filter
          (fun a => !(memStr a.1 (resolvedKeys cmap idx bs)) && memKey idx a.1) := by
      rw [List.filter_filter]
      apply List.filter_congr
      intro q _
      cases h1 : decide (q.1 = k) <;>
        cases h2 : (!(memStr q.1 (resolvedKeys cmap idx bs)) && memKey idx q.1) <;> rfl
    rw [hswap]
    rw [filter_key_nodup hnd hmk]
    by_cases h0 : countKey bs k = 0
    · rw [if_pos h0]
      have hres : memStr k (resolvedKeys cmap idx bs) = false := by
        cases hx : memStr k (resolvedKeys cmap idx bs)
        · rfl
        · obtain ⟨q, hq, _, hkq⟩ := resolvedKeys_mem.mp hx
          exact absurd h0 (countKey_ne_zero hq hkq)
      rw [List.filter_cons_of_pos (by simp [hres, hik])]
      rfl
    · rw [if_neg h0]
      have hres : memStr k (resolvedKeys cmap idx bs) = true := by
        have hne : ¬ (bs.filter (fun p => decide (pyLower p.1 = k))) = [] := by
          intro hnil
          apply h0
          unfold countKey
          rw [hnil]
          rfl
        cases hfl : bs.filter (fun p => decide (pyLower p.1 = k)) with
        | nil => exact absurd hfl hne
        | cons q qt =>
          have hqin : q ∈ bs.filter (fun p => decide (pyLower p.1 = k)) := by
            rw [hfl]; simp
          have hq1 : q ∈ bs := List.mem_of_mem_filter hqin
          have hq2 : pyLower q.1 = k := by simpa using List.of_mem_filter hqin
          rw [resolvedKeys_mem]
          refine ⟨q, hq1, ?_, hq2⟩
          unfold blockMatchesB
          rw [hq2, hkc, hik]
          rfl
      rw [List.filter_cons_of_neg (by simp [hres])]
      rfl
  rw [hwalk, happ]

/-! ### Claim C3 (corrected) -/

/-- C3 counterexample: when the local document contains two blocks sharing the
configured key `a`, one merge pass replaces both of them, so the resulting
document contains two blocks with that key — not exactly one, and more than
one block is rewritten for that key in a single pass. -/
theorem C3_duplicate_key_counterexample :
    countKey (parse_m3u_blocks (runSony
      [str "#EXTINF:-1,A", str "http://u|Cookie=c"]
      [str "G: \x7b", str "A", str "\x7d"]
      [str "#EXTM3U", str "#EXTINF:-1,A", str "http://old1",
       str "#EXTINF:-1,A", str "http://old2"])).2 (str "a") = 2 := rfl

/-- C3 amended: for a channel key present in both the provider's config map
and its upstream index, one merge pass yields exactly one block with that key
whenever the local document carried at most one such block (several local
blocks sharing the key are each replaced, preserving their multiplicity); the
resulting block's `group-title` equals the configured group, whether the
upstream lead line already carried a `group-title=\"` attribute (its value is
replaced) or not (the attribute is appended) — stated for configured group
names without a quote character and upstream lead lines that carry a
comma-separated display name and whose leftmost `group-title=\"` occurrence,
if any, is a complete closed attribute; at most one block per key is
appended. -/
theorem C3_unique_replacement (u c L : List Str) (k G : Str) (B : List Str)
    (hmk : lookupStr (buildChanMap (parse_channels_file c)) k = some G)
    (hik : lookupStr (buildIndex (parse_m3u_blocks u).2) k = some B)
    (hcnt : countKey (parse_m3u_blocks L).2 k ≤ 1)
    (hGq : memChar '"' G = false)
    (hcm : memChar ',' (B.headD []) = true)
    (hcl : gtFirstClosed (rpartitionComma (B.headD [])).1 = true) :
    countKey (parse_m3u_blocks (runSony u c L)).2 k = 1 ∧
    ∀ p ∈ (parse_m3u_blocks (runSony u c L)).2, pyLower p.1 = k →
      getGT (p.2.headD []) = some G := by
  have hnd := buildChanMap_nodup (parse_channels_file c)
  have hidx : ∀ k B, lookupStr (buildIndex (parse_m3u_blocks u).2) k = some B →
      GoodBlk B ∧ k = pyLower (nameOf (B.headD [])) := fun k B h => chanIdx_good h
  have hgood1 := parse_good L
  have hH : ∀ l ∈ (if (parse_m3u_blocks L).1.isEmpty then [str "#EXTM3U"]
      else (parse_m3u_blocks L).1), ExtB l = false := by
    split
    · intro l hl
      simp only [List.mem_singleton] at hl
      subst hl
      rfl
    · exact hgood1.1
  have hubgood : ∀ b ∈ ((mergePass (buildChanMap (parse_channels_file c))
      (buildIndex (parse_m3u_blocks u).2) (parse_m3u_blocks L).2).map Prod.snd), GoodBlk b := by
    intro b hb
    rcases List.mem_map.mp hb with ⟨p, hp, he⟩
    subst he
    exact mergePass_good (fun k B h => (hidx k B h).1) (fun q hq => (hgood1.2 q hq).1) hnd p hp
  have hreparse := parse_roundtrip
    (if (parse_m3u_blocks L).1.isEmpty then [str "#EXTM3U"] else (parse_m3u_blocks L).1)
    ((mergePass (buildChanMap (parse_channels_file c))
      (buildIndex (parse_m3u_blocks u).2) (parse_m3u_blocks L).2).map Prod.snd)
    hH hubgood
  have hout : (parse_m3u_blocks (runSony u c L)).2
      = (mergePass (buildChanMap (parse_channels_file c))
          (buildIndex (parse_m3u_blocks u).2) (parse_m3u_blocks L).2).map
        (fun p => (nameOf (p.2.headD []), p.2)) := by
    rw [show runSony u c L
        = (if (parse_m3u_blocks L).1.isEmpty then [str "#EXTM3U"]
            else (parse_m3u_blocks L).1) ++
          ((mergePass (buildChanMap (parse_channels_file c))
            (buildIndex (parse_m3u_blocks u).2)
            (parse_m3u_blocks L).2).map Prod.snd).flatten from rfl]
    rw [hreparse]
    rw [List.map_map]
    rfl
  have hikm : memKey (buildIndex (parse_m3u_blocks u).2) k = true := by
    unfold memKey
    rw [hik]
    rfl
  constructor
  · rw [hout]
    rw [countKey_mergePass hnd hidx (fun q hq => hgood1.2 q hq) hmk hikm]
    by_cases h0 : countKey (parse_m3u_blocks L).2 k = 0
    · rw [h0, if_pos rfl]
    · have h1 : countKey (parse_m3u_blocks L).2 k = 1 := by omega
      rw [h1, if_neg (by omega)]
  · intro p hp hkey
    rw [hout] at hp
    rcases List.mem_map.mp hp with ⟨q, hq, he⟩
    subst he
    simp only at hkey
    rcases ub_elem_cases hnd hidx (fun r hr => hgood1.2 r hr) q hq with
      ⟨k', hkc', hki', hpe, hkey'⟩ | ⟨hqbs, hmf, hname⟩
    · have hkk : k' = k := hkey'.symm.trans hkey
      rw [hkk] at hpe
      simp only
      rw [hpe]
      rw [show (lookupStr (buildChanMap (parse_channels_file c)) k).getD [] = G from by
        rw [hmk]; rfl]
      rw [(buildBlock_good hik (chanIdx_good hik).1).2]
      exact getGT_setGT2 hcm hGq hcl
    · exfalso
      rw [← hname] at hkey
      have : blockMatchesB (buildChanMap (parse_channels_file c))
          (buildIndex (parse_m3u_blocks u).2) q = true := by
        unfold blockMatchesB
        rw [hkey]
        unfold memKey
        rw [hmk, hik]
        rfl
      rw [this] at hmf
      cases hmf

/-- Witness for C3 at a concrete upstream, config and local document; the
upstream lead line already carries a `group-title=\"Old\"` attribute, which
the merge replaces with the configured group. -/
theorem C3_unique_replacement_witness :
    countKey (parse_m3u_blocks (runSony
      [str "#EXTINF:-1 group-title=\"Old\",A", str "http://u|Cookie=c"]
      [str "G: \x7b", str "A", str "\x7d"]
      [str "#EXTM3U", str "#EXTINF:-1,A", str "http://old1"])).2 (str "a") = 1 ∧
    ∀ p ∈ (parse_m3u_blocks (runSony
      [str "#EXTINF:-1 group-title=\"Old\",A", str "http://u|Cookie=c"]
      [str "G: \x7b", str "A", str "\x7d"]
      [str "#EXTM3U", str "#EXTINF:-1,A", str "http://old1"])).2,
      pyLower p.1 = str "a" → getGT (p.2.headD []) = some (str "G") :=
  C3_unique_replacement
    [str "#EXTINF:-1 group-title=\"Old\",A", str "http://u|Cookie=c"]
    [str "G: \x7b", str "A", str "\x7d"]
    [str "#EXTM3U", str "#EXTINF:-1,A", str "http://old1"]
    (str "a") (str "G")
    [str "#EXTINF:-1 group-title=\"Old\",A", str "http://u|Cookie=c"]
    (by decide) (by decide) (by decide) (by decide) (by decide) (by decide)


/-! ### Claim C4 (corrected) -/

theorem sony_spec_eq (src : List Str) : resolveCred_sony src = specResolve_star src := by
  unfold resolveCred_sony specResolve_star
  rcases hu : urlLineOf src with _ | url <;> rcases hc : (scanCreds src).1 with _ | c <;>
    simp only [hu, hc]
  rcases he : url.isEmpty
  · rcases hp : pipeFind url with _ | p
    · simp [he, hp]
    · rcases hq : uaFind (pyStrip p.2) with _ | q <;> simp [he, hp, hq]
  · simp [he]

theorem m3u_spec_eq (src : List Str) : resolveCred_m3u src = specResolve_m3u src := by
  unfold resolveCred_m3u resolveCred_sony specResolve_m3u
  rcases hu : urlLineOf src with _ | url <;> rcases hc : (scanCreds src).1 with _ | c <;>
    simp only [hu, hc]
  rcases he : url.isEmpty
  · rcases hp : pipeFind url with _ | p
    · simp [he, hp]
    · rcases hq : uaFind (pyStrip p.2) with _ | q <;> simp [he, hp, hq]
  · simp [he]

/-- C4 counterexample: (1) with a `#EXTVLCOPT:http-user-agent=UA1` directive
present, the `&User-Agent=` segment of the URL still overwrites the directive
value (the resolver returns UA2, not UA1 as the claim's priority demands);
(2) the canonicalized-URL cookie-extraction step is absent from
update_star.py (and update_sony.py): on a URL carrying `?__hdnea__=` and
`&xxx=%7Ccookie=cc` the star resolver finds no cookie, while the m3u
resolver extracts `cc`. -/
theorem C4_priority_counterexample :
    (resolveCred_m3u [str "#EXTINF:-1,A",
        str "#EXTVLCOPT:http-user-agent=UA1",
        str "http://h/p|Cookie=c&User-Agent=UA2"]).2 = some (str "UA2") ∧
    (resolveCred_star [str "#EXTINF:-1,A",
        str "http://h/p?__hdnea__=x&xxx=%7Ccookie=cc"]).1 = none ∧
    (resolveCred_m3u [str "#EXTINF:-1,A",
        str "http://h/p?__hdnea__=x&xxx=%7Ccookie=cc"]).1 = some (str "cc") :=
  ⟨rfl, rfl, rfl⟩

/-- C4 amended: credential resolution in update_m3u.py/update_zee.py follows
the chain EXTHTTP-directive cookie, else `|Cookie=` URL split, else
canonicalized-URL extraction, while update_sony.py/update_star.py stop after
the first two steps; in all four, a `&User-Agent=` segment uncovered by the
`|Cookie=` split overwrites an existing VLC-option user-agent rather than
deferring to it; resolving no cookie and no user-agent is a valid outcome
(the resolvers are total functions into option pairs). -/
theorem C4_resolution_chain (src : List Str) :
    resolveCred_m3u src = specResolve_m3u src ∧
    resolveCred_star src = specResolve_star src :=
  ⟨m3u_spec_eq src, sony_spec_eq src⟩

/-! ### Claim C5 (corrected) -/

theorem findSplit_acc : ∀ (s acc : Str) (p : Str × Str),
    findSplitAux pipeCookiePat acc s = some p → ∃ t, p.1 = acc.reverse ++ t := by
  intro s
  induction s with
  | nil =>
    intro acc p h
    unfold findSplitAux at h
    cases hm : matchPat pipeCookiePat [] with
    | some r =>
      rw [hm] at h
      cases h
      exact ⟨[], by simp⟩
    | none => rw [hm] at h; cases h
  | cons c cs ih =>
    intro acc p h
    unfold findSplitAux at h
    cases hm : matchPat pipeCookiePat (c :: cs) with
    | some r =>
      rw [hm] at h
      cases h
      exact ⟨[], by simp⟩
    | none =>
      rw [hm] at h
      obtain ⟨t, ht⟩ := ih (c :: acc) p h
      refine ⟨c :: t, ?_⟩
      rw [ht]
      simp

theorem sonyCut_no_marker : ∀ (s acc : Str),
    findSplitAux pipeCookiePat acc s = none →
    ∀ acc2 : Str, sonyCutAux acc2 s = acc2.reverse ++ s.takeWhile (fun c => !(c == '?')) := by
  intro s
  induction s with
  | nil => intro acc h acc2; simp [sonyCutAux]
  | cons c cs ih =>
    intro acc h acc2
    unfold findSplitAux at h
    cases hm : matchPat pipeCookiePat (c :: cs) with
    | some r => rw [hm] at h; cases h
    | none =>
      rw [hm] at h
      unfold sonyCutAux
      rw [hm]
      rw [List.takeWhile_cons]
      cases hc : c == '?' with
      | true => simp [hc]
      | false =>
        simp only [hc, Bool.false_eq_true, if_false, Bool.not_false, if_true]
        rw [ih (c :: acc) h (c :: acc2)]
        simp

theorem sonyCut_marker : ∀ (s acc : Str) (p : Str × Str),
    findSplitAux pipeCookiePat acc s = some p → memChar '?' p.1 = false →
    sonyCutAux acc s = p.1 := by
  intro s
  induction s with
  | nil =>
    intro acc p h hq
    unfold findSplitAux at h
    cases hm : matchPat pipeCookiePat [] with
    | some r => rw [hm] at h; cases h; rfl
    | none => rw [hm] at h; cases h
  | cons c cs ih =>
    intro acc p h hq
    unfold findSplitAux at h
    cases hm : matchPat pipeCookiePat (c :: cs) with
    | some r =>
      rw [hm] at h
      cases h
      unfold sonyCutAux
      rw [hm]
    | none =>
      rw [hm] at h
      have hc : (c == '?') = false := by
        cases hcq : c == '?' with
        | false => rfl
        | true =>
          exfalso
          obtain ⟨t, ht⟩ := findSplit_acc cs (c :: acc) p h
          have hceq : c = '?' := beq_iff_eq.mp hcq
          subst hceq
          rw [ht] at hq
          rw [show memChar '?' (('?' :: acc).reverse ++ t) = true from
            memChar_iff.mpr (by simp)] at hq
          cases hq
      unfold sonyCutAux
      rw [hm, hc]
      simp only [Bool.false_eq_true, if_false]
      exact ih (c :: acc) p h hq

/-- C5 counterexample: on the URL `http://h/p?q|Cookie=c`, whose `?` precedes
the `|Cookie=` marker, update_sony.py's base is cut at the earlier `?`
(`http://h/p`), not before the marker (`http://h/p?q`) as the claim demands
— only update_m3u.py cuts before the marker; the sony transformer
accordingly rewrites the terminal line from the shorter base. -/
theorem C5_base_counterexample :
    base_m3u (str "http://h/p?q|Cookie=c") = str "http://h/p?q" ∧
    base_sony (str "http://h/p?q|Cookie=c") = str "http://h/p" ∧
    transform_block_sony [str "#EXTINF:-1,A", str "http://h/p?q|Cookie=c"]
      = [str "#EXTINF:-1,A", str "#EXTHTTP:\x7b\"cookie\":\"c\"\x7d",
         str "http://h/p?c&xxx=%7Ccookie=c"] :=
  ⟨rfl, rfl, rfl⟩

/-- C5 amended: with no `|Cookie=`/`|cookie=` marker, both base computations
cut before the first `?` (or keep the whole URL); with a marker,
update_m3u.py's base is the stripped substring before the marker even when a
`?` occurs earlier, while update_sony.py/update_star.py cut at the earliest
of the marker or `?` (they agree with m3u only when no `?` precedes the
marker); when a nonempty cookie was resolved, the rewritten terminal line is
exactly `base?cookie&xxx=%7Ccookie=cookie` with the cookie inserted verbatim
in both positions; when no cookie was resolved the terminal URL passes
through unchanged. -/
theorem C5_canonical_url (src : List Str) (url : Str)
    (hurl : urlLineOf src = some url) :
    (pipeFind url = none →
       base_m3u url = pyStrip (url.takeWhile (fun c => !(c == '?'))) ∧
       base_sony url = pyStrip (url.takeWhile (fun c => !(c == '?')))) ∧
    (∀ p, pipeFind url = some p → base_m3u url = pyStrip p.1) ∧
    (∀ p, pipeFind url = some p → memChar '?' p.1 = false →
       base_sony url = pyStrip p.1) ∧
    (∀ ck, (resolveCred_m3u src).1 = some ck → ck.isEmpty = false →
       transform_block_m3u src
         = appendCk (appendUA (keepLines src (findUrlIdx src)) (resolveCred_m3u src) true)
             (resolveCred_m3u src)
           ++ [base_m3u url ++ '?' :: (ck ++ str "&xxx=%7Ccookie=" ++ ck)]) ∧
    (optTruthy (resolveCred_m3u src).1 = false →
       transform_block_m3u src
         = appendUA (keepLines src (findUrlIdx src)) (resolveCred_m3u src) true ++ [url]) ∧
    (∀ ck, (resolveCred_sony src).1 = some ck → ck.isEmpty = false →
       transform_block_sony src
         = appendCk (appendUA (keepLines src (findUrlIdx src)) (resolveCred_sony src) true)
             (resolveCred_sony src)
           ++ [base_sony url ++ '?' :: (ck ++ str "&xxx=%7Ccookie=" ++ ck)]) ∧
    (optTruthy (resolveCred_sony src).1 = false →
       transform_block_sony src
         = appendUA (keepLines src (findUrlIdx src)) (resolveCred_sony src) true ++ [url]) := by
  obtain ⟨c0, w0, hu0, _, _⟩ := urlLineOf_shape hurl
  have hune : url.isEmpty = false := by rw [hu0]; rfl
  have hsrcne : src.isEmpty = false := by
    cases src with
    | nil => cases hurl
    | cons a t => rfl
  refine ⟨?_, ?_, ?_, ?_, ?_, ?_, ?_⟩
  · intro hp
    constructor
    · unfold base_m3u pipeFind
      rw [show findSplitAux pipeCookiePat [] url = pipeFind url from rfl, hp]
    · unfold base_sony
      rw [sonyCut_no_marker url [] hp []]
      rfl
  · intro p hp
    unfold base_m3u pipeFind
    rw [show findSplitAux pipeCookiePat [] url = pipeFind url from rfl, hp]
  · intro p hp hq
    unfold base_sony
    rw [sonyCut_marker url [] p hp hq]
  · intro ck hck hckne
    have hbne : (buildCanonUrl (base_m3u url) ck).isEmpty = false := by
      unfold buildCanonUrl
      cases base_m3u url <;> rfl
    unfold transform_block_m3u
    rw [hsrcne]
    simp only [Bool.false_eq_true, if_false]
    unfold rebuildBlock
    have hmk : mkTurl src (resolveCred_m3u src) base_m3u
        = some (buildCanonUrl (base_m3u url) ck) := by
      unfold mkTurl
      rw [hurl]
      simp [hck, optTruthy, hckne, hune]
    rw [hmk]
    unfold appendUrl
    simp only [hbne, Bool.not_false, if_true]
    unfold buildCanonUrl
    rfl
  · intro hck
    unfold transform_block_m3u
    rw [hsrcne]
    simp only [Bool.false_eq_true, if_false]
    unfold rebuildBlock
    have hmk : mkTurl src (resolveCred_m3u src) base_m3u = some url := by
      unfold mkTurl
      rw [hurl]
      simp [hck]
    rw [hmk]
    unfold appendUrl
    simp only [hune, Bool.not_false, if_true]
    have hap : appendCk (appendUA (keepLines src (findUrlIdx src)) (resolveCred_m3u src) true)
        (resolveCred_m3u src)
        = appendUA (keepLines src (findUrlIdx src)) (resolveCred_m3u src) true := by
      unfold appendCk
      rw [hck]
      rfl
    rw [hap]
  · intro ck hck hckne
    have hbne : (buildCanonUrl (base_sony url) ck).isEmpty = false := by
      unfold buildCanonUrl
      cases base_sony url <;> rfl
    unfold transform_block_sony
    rw [hsrcne]
    simp only [Bool.false_eq_true, if_false]
    unfold rebuildBlock
    have hmk : mkTurl src (resolveCred_sony src) base_sony
        = some (buildCanonUrl (base_sony url) ck) := by
      unfold mkTurl
      rw [hurl]
      simp [hck, optTruthy, hckne, hune]
    rw [hmk]
    unfold appendUrl
    simp only [hbne, Bool.not_false, if_true]
    unfold buildCanonUrl
    rfl
  · intro hck
    unfold transform_block_sony
    rw [hsrcne]
    simp only [Bool.false_eq_true, if_false]
    unfold rebuildBlock
    have hmk : mkTurl src (resolveCred_sony src) base_sony = some url := by
      unfold mkTurl
      rw [hurl]
      simp [hck]
    rw [hmk]
    unfold appendUrl
    simp only [hune, Bool.not_false, if_true]
    have hap : appendCk (appendUA (keepLines src (findUrlIdx src)) (resolveCred_sony src) true)
        (resolveCred_sony src)
        = appendUA (keepLines src (findUrlIdx src)) (resolveCred_sony src) true := by
      unfold appendCk
      rw [hck]
      rfl
    rw [hap]

/-- Witness for C5 at a concrete block whose URL carries a `|Cookie=` marker
and no earlier `?`. -/
theorem C5_canonical_url_witness :
    base_m3u (str "http://h/p|Cookie=c") = pyStrip (str "http://h/p") ∧
    base_sony (str "http://h/p|Cookie=c") = pyStrip (str "http://h/p") ∧
    transform_block_sony [str "#EXTINF:-1,A", str "http://h/p|Cookie=c"]
      = appendCk (appendUA (keepLines [str "#EXTINF:-1,A", str "http://h/p|Cookie=c"]
            (findUrlIdx [str "#EXTINF:-1,A", str "http://h/p|Cookie=c"]))
            (resolveCred_sony [str "#EXTINF:-1,A", str "http://h/p|Cookie=c"]) true)
          (resolveCred_sony [str "#EXTINF:-1,A", str "http://h/p|Cookie=c"])
        ++ [base_sony (str "http://h/p|Cookie=c")
            ++ '?' :: (str "c" ++ str "&xxx=%7Ccookie=" ++ str "c")] := by
  have h := C5_canonical_url [str "#EXTINF:-1,A", str "http://h/p|Cookie=c"]
    (str "http://h/p|Cookie=c") rfl
  exact ⟨h.2.1 (str "http://h/p", str "c") rfl,
         h.2.2.1 (str "http://h/p", str "c") rfl (by decide),
         h.2.2.2.2.2.1 (str "c") rfl rfl⟩

/-! ### Claim C6 (corrected) -/

theorem findSplit_pre : ∀ (s acc : Str) (p : Str × Str),
    findSplitAux pipeCookiePat acc s = some p →
    ∃ t, p.1 = acc.reverse ++ t ∧ ∃ r, t ++ r = s := by
  intro s
  induction s with
  | nil =>
    intro acc p h
    unfold findSplitAux at h
    cases hm : matchPat pipeCookiePat [] with
    | some r =>
      rw [hm] at h
      cases h
      exact ⟨[], by simp, [], rfl⟩
    | none => rw [hm] at h; cases h
  | cons c cs ih =>
    intro acc p h
    unfold findSplitAux at h
    cases hm : matchPat pipeCookiePat (c :: cs) with
    | some r =>
      rw [hm] at h
      cases h
      exact ⟨[], by simp, c :: cs, rfl⟩
    | none =>
      rw [hm] at h
      obtain ⟨t, ht, r, hr⟩ := ih (c :: acc) p h
      refine ⟨c :: t, ?_, r, ?_⟩
      · rw [ht]; simp
      · rw [List.cons_append, hr]

theorem hasPfx_http_cons {c : Char} (t : Str) (h : (c == '#') = false) :
    hasPfx exthttpPfx (c :: t) = false := by
  rw [show hasPfx exthttpPfx (c :: t)
      = (('#' == c) && hasPfx (str "EXTHTTP") t) from rfl]
  rw [show ('#' == c) = (c == '#') from by
    cases hc : c == '#'
    · simpa [beq_iff_eq] using fun he : '#' = c => by
        rw [he.symm] at hc
        simpa using hc
    · simp only [beq_iff_eq] at hc
      simp [hc]]
  rw [h]
  rfl

theorem base_m3u_shape {c : Char} {w : Str} (hc : pySpace c = false) :
    base_m3u (c :: w) = [] ∨ ∃ y, base_m3u (c :: w) = c :: y := by
  unfold base_m3u
  cases hp : pipeFind (c :: w) with
  | none =>
    rw [List.takeWhile_cons]
    cases hq : c == '?' with
    | true =>
      left
      rfl
    | false =>
      right
      exact pyStrip_cons_nonspace hc _
  | some p =>
    obtain ⟨t, ht, r, hr⟩ := findSplit_pre (c :: w) [] p hp
    simp only [List.reverse_nil, List.nil_append] at ht
    cases t with
    | nil =>
      left
      show pyStrip p.1 = []
      rw [ht]
      rfl
    | cons d dt =>
      right
      have hd : d = c := by
        rw [List.cons_append] at hr
        injection hr with h1 _
      show ∃ y, pyStrip p.1 = c :: y
      rw [ht, hd]
      exact pyStrip_cons_nonspace hc dt

theorem http_free_canon_m3u {src : List Str} {url ck : Str}
    (h : urlLineOf src = some url) :
    hasPfx exthttpPfx (buildCanonUrl (base_m3u url) ck) = false := by
  obtain ⟨c, w, he, hch, hcs⟩ := urlLineOf_shape h
  subst he
  unfold buildCanonUrl
  rcases base_m3u_shape hcs (w := w) with hb | ⟨y, hb⟩
  · rw [hb]
    simp only [List.nil_append]
    exact hasPfx_http_cons _ (by decide)
  · rw [hb, List.cons_append]
    exact hasPfx_http_cons _ hch

theorem http_free_canon_sony {src : List Str} {url ck : Str}
    (h : urlLineOf src = some url) :
    hasPfx exthttpPfx (buildCanonUrl (base_sony url) ck) = false := by
  obtain ⟨c, w, he, hch, hcs⟩ := urlLineOf_shape h
  subst he
  unfold buildCanonUrl
  rcases base_sony_shape hcs (w := w) with hb | ⟨y, hb⟩
  · rw [hb]
    simp only [List.nil_append]
    exact hasPfx_http_cons _ (by decide)
  · rw [hb, List.cons_append]
    exact hasPfx_http_cons _ hch

theorem http_free_url {src : List Str} {url : Str} (h : urlLineOf src = some url) :
    hasPfx exthttpPfx url = false := by
  obtain ⟨c, w, he, hch, _⟩ := urlLineOf_shape h
  subst he
  exact hasPfx_http_cons _ hch

theorem keepLines_no_http {src : List Str} {i : Option Nat} :
    ∀ l ∈ keepLines src i, hasPfx exthttpPfx l = false := by
  intro l hl
  unfold keepLines at hl
  rcases List.mem_map.mp hl with ⟨p, hp, he⟩
  rcases List.mem_filter.mp hp with ⟨_, hq⟩
  simp only [Bool.and_eq_true, Bool.not_eq_true'] at hq
  rw [← he]
  exact hq.1.2

theorem filter_none {p : Str → Bool} : ∀ {l : List Str}, (∀ a ∈ l, p a = false) →
    l.filter p = [] := by
  intro l
  induction l with
  | nil => intro h; rfl
  | cons a t ih =>
    intro h
    rw [List.filter_cons]
    rw [h a (List.mem_cons_self a t)]
    simp only [Bool.false_eq_true, if_false]
    exact ih (fun b hb => h b (List.mem_cons_of_mem a hb))

theorem filter_http_appendUA (nb : List Str) (rc : Option Str × Option Str) (sUA : Bool) :
    (appendUA nb rc sUA).filter (fun l => hasPfx exthttpPfx l)
      = nb.filter (fun l => hasPfx exthttpPfx l) := by
  unfold appendUA
  by_cases hc : optTruthy rc.2 = true
  · rw [if_pos hc, List.filter_append]
    rw [show List.filter (fun l => hasPfx exthttpPfx l)
        [mkVlcoptLine (if sUA then pyStrip (rc.2.getD []) else rc.2.getD [])] = [] from by
      rw [List.filter_cons]
      rw [show hasPfx exthttpPfx
          (mkVlcoptLine (if sUA then pyStrip (rc.2.getD []) else rc.2.getD [])) = false from rfl]
      rfl]
    simp
  · rw [if_neg hc]

theorem filter_http_appendCk (nb : List Str) (rc : Option Str × Option Str) :
    (appendCk nb rc).filter (fun l => hasPfx exthttpPfx l)
      = nb.filter (fun l => hasPfx exthttpPfx l)
        ++ (if optTruthy rc.1 = true then [mkExthttpLine (pyStrip (rc.1.getD []))] else []) := by
  unfold appendCk
  by_cases hc : optTruthy rc.1 = true
  · rw [if_pos hc, if_pos hc, List.filter_append]
    congr 1
  · rw [if_neg hc, if_neg hc]
    simp

theorem rebuild_http_filter (src : List Str) (rc : Option Str × Option Str)
    (bF : Str → Str) (sUA : Bool)
    (hb : ∀ u, mkTurl src rc bF = some u → hasPfx exthttpPfx u = false) :
    (rebuildBlock src rc bF sUA).filter (fun l => hasPfx exthttpPfx l)
      = if optTruthy rc.1 = true then [mkExthttpLine (pyStrip (rc.1.getD []))] else [] := by
  unfold rebuildBlock
  have hkeep : (keepLines src (findUrlIdx src)).filter (fun l => hasPfx exthttpPfx l) = [] :=
    filter_none (fun a ha => keepLines_no_http a ha)
  cases ht : mkTurl src rc bF with
  | none =>
    rw [show appendUrl (appendCk (appendUA (keepLines src (findUrlIdx src)) rc sUA) rc) none
        = appendCk (appendUA (keepLines src (findUrlIdx src)) rc sUA) rc from rfl]
    rw [filter_http_appendCk, filter_http_appendUA, hkeep]
    rfl
  | some u =>
    rw [show appendUrl (appendCk (appendUA (keepLines src (findUrlIdx src)) rc sUA) rc) (some u)
        = if (!u.isEmpty) = true
          then appendCk (appendUA (keepLines src (findUrlIdx src)) rc sUA) rc ++ [u]
          else appendCk (appendUA (keepLines src (findUrlIdx src)) rc sUA) rc from rfl]
    by_cases he : (!u.isEmpty) = true
    · rw [if_pos he, List.filter_append]
      rw [filter_http_appendCk, filter_http_appendUA, hkeep]
      rw [List.filter_cons]
      rw [hb u ht]
      simp
    · rw [if_neg he]
      rw [filter_http_appendCk, filter_http_appendUA, hkeep]
      rfl

theorem filter_http_appendCkStar (nb : List Str) (rc : Option Str × Option Str) :
    (appendCkStar nb rc).filter (fun l => hasPfx exthttpPfx l)
      = nb.filter (fun l => hasPfx exthttpPfx l)
        ++ (if optTruthy rc.1 = true then [mkExthttpLine (rc.1.getD [])] else []) := by
  unfold appendCkStar
  by_cases hc : optTruthy rc.1 = true
  · rw [if_pos hc, if_pos hc, List.filter_append]
    congr 1
  · rw [if_neg hc, if_neg hc]
    simp

theorem rebuild_http_filter_star (src : List Str) (rc : Option Str × Option Str)
    (bF : Str → Str)
    (hb : ∀ u, mkTurl src rc bF = some u → hasPfx exthttpPfx u = false) :
    (rebuildBlockStar src rc bF).filter (fun l => hasPfx exthttpPfx l)
      = if optTruthy rc.1 = true then [mkExthttpLine (rc.1.getD [])] else [] := by
  unfold rebuildBlockStar
  have hkeep : (keepLines src (findUrlIdx src)).filter (fun l => hasPfx exthttpPfx l) = [] :=
    filter_none (fun a ha => keepLines_no_http a ha)
  cases ht : mkTurl src rc bF with
  | none =>
    rw [show appendUrl (appendCkStar (appendUA (keepLines src (findUrlIdx src)) rc false) rc)
          none
        = appendCkStar (appendUA (keepLines src (findUrlIdx src)) rc false) rc from rfl]
    rw [filter_http_appendCkStar, filter_http_appendUA, hkeep]
    rfl
  | some u =>
    rw [show appendUrl (appendCkStar (appendUA (keepLines src (findUrlIdx src)) rc false) rc)
          (some u)
        = if (!u.isEmpty) = true
          then appendCkStar (appendUA (keepLines src (findUrlIdx src)) rc false) rc ++ [u]
          else appendCkStar (appendUA (keepLines src (findUrlIdx src)) rc false) rc from rfl]
    by_cases he : (!u.isEmpty) = true
    · rw [if_pos he, List.filter_append]
      rw [filter_http_appendCkStar, filter_http_appendUA, hkeep]
      rw [List.filter_cons]
      rw [hb u ht]
      simp
    · rw [if_neg he]
      rw [filter_http_appendCkStar, filter_http_appendUA, hkeep]
      rfl

/-- C6 counterexample: a block whose `#EXTHTTP` directive also carries an
`Origin` field loses that field: both the m3u and the star transformer
replace the directive with the single-field cookie object instead of merging
into the existing object. -/
theorem C6_origin_dropped_counterexample :
    transform_block_m3u [str "#EXTINF:-1,A",
        str "#EXTHTTP:\x7b\"cookie\":\"c\",\"Origin\":\"o\"\x7d", str "http://h/p"]
      = [str "#EXTINF:-1,A", str "#EXTHTTP:\x7b\"cookie\":\"c\"\x7d",
         str "http://h/p?c&xxx=%7Ccookie=c"] ∧
    transform_block_star [str "#EXTINF:-1,A",
        str "#EXTHTTP:\x7b\"cookie\":\"c\",\"Origin\":\"o\"\x7d", str "http://h/p"]
      = [str "#EXTINF:-1,A", str "#EXTHTTP:\x7b\"cookie\":\"c\"\x7d",
         str "http://h/p?c&xxx=%7Ccookie=c"] :=
  ⟨rfl, rfl⟩

/-- C6 amended: the block transformers always replace, never merge: every
`#EXTHTTP` line of a transformed block is exactly the canonical single-field
cookie object built from the resolved cookie — one such line when a cookie
was resolved, none otherwise — so any other field of a pre-existing
`#EXTHTTP` directive (Origin, Referer, ...) is dropped, in both
update_m3u.py (which strips the cookie at append time) and update_star.py
(which writes the resolved cookie verbatim). -/
theorem C6_replace_not_merge (src : List Str) :
    (transform_block_m3u src).filter (fun l => hasPfx exthttpPfx l)
      = (if optTruthy (resolveCred_m3u src).1 = true
         then [mkExthttpLine (pyStrip ((resolveCred_m3u src).1.getD []))] else []) ∧
    (transform_block_star src).filter (fun l => hasPfx exthttpPfx l)
      = (if optTruthy (resolveCred_star src).1 = true
         then [mkExthttpLine ((resolveCred_star src).1.getD [])] else []) := by
  constructor
  · cases src with
    | nil => rfl
    | cons h t =>
      unfold transform_block_m3u
      rw [show (h :: t).isEmpty = false from rfl]
      simp only [Bool.false_eq_true, if_false]
      apply rebuild_http_filter
      intro u hu
      unfold mkTurl at hu
      cases hurl : urlLineOf (h :: t) with
      | none => rw [hurl] at hu; cases hu
      | some url =>
        rw [hurl] at hu
        replace hu : (if (optTruthy (resolveCred_m3u (h :: t)).1 && !url.isEmpty) = true
            then some (buildCanonUrl (base_m3u url) ((resolveCred_m3u (h :: t)).1.getD []))
            else some url) = some u := hu
        split at hu
        · have heq := Option.some.inj hu
          subst heq
          exact http_free_canon_m3u hurl
        · have heq := Option.some.inj hu
          subst heq
          exact http_free_url hurl
  · cases src with
    | nil => rfl
    | cons h t =>
      unfold transform_block_star
      rw [show (h :: t).isEmpty = false from rfl]
      simp only [Bool.false_eq_true, if_false]
      apply rebuild_http_filter_star
      intro u hu
      unfold mkTurl at hu
      cases hurl : urlLineOf (h :: t) with
      | none => rw [hurl] at hu; cases hu
      | some url =>
        rw [hurl] at hu
        replace hu : (if (optTruthy (resolveCred_star (h :: t)).1 && !url.isEmpty) = true
            then some (buildCanonUrl (base_sony url) ((resolveCred_star (h :: t)).1.getD []))
            else some url) = some u := hu
        split at hu
        · have heq := Option.some.inj hu
          subst heq
          exact http_free_canon_sony hurl
        · have heq := Option.some.inj hu
          subst heq
          exact http_free_url hurl

/-! ### Claim C7 (corrected) -/

theorem chIn2_cases {a b c : Char} (h : chIn2 a b c = true) : c = a ∨ c = b := by
  have hh : ((c == a) || (c == b)) = true := h
  cases hca : c == a with
  | true => exact Or.inl (beq_iff_eq.mp hca)
  | false =>
    rw [hca] at hh
    simp only [Bool.false_or] at hh
    exact Or.inr (beq_iff_eq.mp hh)

theorem litPat_sound : ∀ (l s r : Str), matchPat (l.map chEq) s = some r → s = l ++ r := by
  intro l
  induction l with
  | nil =>
    intro s r h
    cases h
    rfl
  | cons a al ih =>
    intro s r h
    cases s with
    | nil => cases h
    | cons c cs =>
      by_cases hc : chEq a c = true
      · replace h : matchPat (al.map chEq) cs = some r := by
          rw [show matchPat ((a :: al).map chEq) (c :: cs)
              = (if chEq a c = true then matchPat (al.map chEq) cs else none) from rfl] at h
          rw [if_pos hc] at h
          exact h
        have hs := ih cs r h
        subst hs
        have hca : c = a := beq_iff_eq.mp hc
        rw [hca]
        rfl
      · rw [show matchPat ((a :: al).map chEq) (c :: cs)
            = (if chEq a c = true then matchPat (al.map chEq) cs else none) from rfl] at h
        rw [if_neg hc] at h
        cases h

theorem matchPat_append : ∀ (p1 p2 : PatC) (s r : Str),
    matchPat (p1 ++ p2) s = some r →
    ∃ m, matchPat p1 s = some m ∧ matchPat p2 m = some r := by
  intro p1
  induction p1 with
  | nil => intro p2 s r h; exact ⟨s, rfl, h⟩
  | cons f fs ih =>
    intro p2 s r h
    cases s with
    | nil => cases h
    | cons c cs =>
      by_cases hf : f c = true
      · replace h : matchPat (fs ++ p2) cs = some r := by
          rw [show matchPat ((f :: fs) ++ p2) (c :: cs)
              = (if f c = true then matchPat (fs ++ p2) cs else none) from rfl] at h
          rw [if_pos hf] at h
          exact h
        obtain ⟨m, h1, h2⟩ := ih p2 cs r h
        refine ⟨m, ?_, h2⟩
        rw [show matchPat (f :: fs) (c :: cs)
            = (if f c = true then matchPat fs cs else none) from rfl]
        rw [if_pos hf]
        exact h1
      · rw [show matchPat ((f :: fs) ++ p2) (c :: cs)
            = (if f c = true then matchPat (fs ++ p2) cs else none) from rfl] at h
        rw [if_neg hf] at h
        cases h

theorem findSplitAux_sound (pat : PatC) : ∀ (s acc : Str) (p : Str × Str),
    findSplitAux pat acc s = some p →
    ∃ r0, acc.reverse ++ s = p.1 ++ r0 ∧ matchPat pat r0 = some p.2 := by
  intro s
  induction s with
  | nil =>
    intro acc p h
    unfold findSplitAux at h
    cases hm : matchPat pat [] with
    | some r =>
      rw [hm] at h
      cases h
      exact ⟨[], by simp, hm⟩
    | none => rw [hm] at h; cases h
  | cons c cs ih =>
    intro acc p h
    unfold findSplitAux at h
    cases hm : matchPat pat (c :: cs) with
    | some r =>
      rw [hm] at h
      cases h
      exact ⟨c :: cs, rfl, hm⟩
    | none =>
      rw [hm] at h
      obtain ⟨r0, he, hmm⟩ := ih (c :: acc) p h
      refine ⟨r0, ?_, hmm⟩
      rw [← he]
      simp

theorem pipePat_sound {s r : Str} (h : matchPat pipeCookiePat s = some r) :
    s = str "|Cookie=" ++ r ∨ s = str "|cookie=" ++ r := by
  cases s with
  | nil => cases h
  | cons c1 s1 =>
    by_cases h1 : chEq '|' c1 = true
    · replace h : matchPat (chIn2 'C' 'c' :: litPat "ookie=") s1 = some r := by
        rw [show matchPat pipeCookiePat (c1 :: s1)
            = (if chEq '|' c1 = true
               then matchPat (chIn2 'C' 'c' :: litPat "ookie=") s1 else none) from rfl] at h
        rw [if_pos h1] at h
        exact h
      have hc1 : c1 = '|' := beq_iff_eq.mp h1
      subst hc1
      cases s1 with
      | nil => cases h
      | cons c2 s2 =>
        by_cases h2 : chIn2 'C' 'c' c2 = true
        · replace h : matchPat (litPat "ookie=") s2 = some r := by
            rw [show matchPat (chIn2 'C' 'c' :: litPat "ookie=") (c2 :: s2)
                = (if chIn2 'C' 'c' c2 = true
                   then matchPat (litPat "ookie=") s2 else none) from rfl] at h
            rw [if_pos h2] at h
            exact h
          have hs2 : s2 = str "ookie=" ++ r := litPat_sound (str "ookie=") s2 r h
          subst hs2
          rcases chIn2_cases h2 with hc | hc <;> subst hc
          · left
            rfl
          · right
            rfl
        · rw [show matchPat (chIn2 'C' 'c' :: litPat "ookie=") (c2 :: s2)
              = (if chIn2 'C' 'c' c2 = true
                 then matchPat (litPat "ookie=") s2 else none) from rfl] at h
          rw [if_neg h2] at h
          cases h
    · rw [show matchPat pipeCookiePat (c1 :: s1)
          = (if chEq '|' c1 = true
             then matchPat (chIn2 'C' 'c' :: litPat "ookie=") s1 else none) from rfl] at h
      rw [if_neg h1] at h
      cases h

theorem uaPat_sound {s r : Str} (h : matchPat uaAmpPat s = some r) :
    s = str "&User-Agent=" ++ r ∨ s = str "&User-agent=" ++ r ∨
    s = str "&user-Agent=" ++ r ∨ s = str "&user-agent=" ++ r := by
  cases s with
  | nil => cases h
  | cons c1 s1 =>
    by_cases h1 : chEq '&' c1 = true
    · replace h : matchPat (chIn2 'U' 'u' :: (litPat "ser-" ++ (chIn2 'A' 'a' :: litPat "gent=")))
          s1 = some r := by
        rw [show matchPat uaAmpPat (c1 :: s1)
            = (if chEq '&' c1 = true
               then matchPat (chIn2 'U' 'u' :: (litPat "ser-"
                 ++ (chIn2 'A' 'a' :: litPat "gent="))) s1 else none) from rfl] at h
        rw [if_pos h1] at h
        exact h
      have hc1 : c1 = '&' := beq_iff_eq.mp h1
      subst hc1
      cases s1 with
      | nil => cases h
      | cons c2 s2 =>
        by_cases h2 : chIn2 'U' 'u' c2 = true
        · replace h : matchPat (litPat "ser-" ++ (chIn2 'A' 'a' :: litPat "gent=")) s2
              = some r := by
            rw [show matchPat (chIn2 'U' 'u' :: (litPat "ser-"
                  ++ (chIn2 'A' 'a' :: litPat "gent="))) (c2 :: s2)
                = (if chIn2 'U' 'u' c2 = true
                   then matchPat (litPat "ser-" ++ (chIn2 'A' 'a' :: litPat "gent=")) s2
                   else none) from rfl] at h
            rw [if_pos h2] at h
            exact h
          obtain ⟨m, hm1, hm2⟩ :=
            matchPat_append (litPat "ser-") (chIn2 'A' 'a' :: litPat "gent=") s2 r h
          have hs2 : s2 = str "ser-" ++ m := litPat_sound (str "ser-") s2 m hm1
          subst hs2
          cases m with
          | nil => cases hm2
          | cons c3 s3 =>
            by_cases h3 : chIn2 'A' 'a' c3 = true
            · replace hm2 : matchPat (litPat "gent=") s3 = some r := by
                rw [show matchPat (chIn2 'A' 'a' :: litPat "gent=") (c3 :: s3)
                    = (if chIn2 'A' 'a' c3 = true
                       then matchPat (litPat "gent=") s3 else none) from rfl] at hm2
                rw [if_pos h3] at hm2
                exact hm2
              have hs3 : s3 = str "gent=" ++ r := litPat_sound (str "gent=") s3 r hm2
              subst hs3
              rcases chIn2_cases h2 with hu | hu <;> rcases chIn2_cases h3 with ha | ha <;>
                subst hu <;> subst ha
              · left
                rfl
              · right
                left
                rfl
              · right
                right
                left
                rfl
              · right
                right
                right
                rfl
            · rw [show matchPat (chIn2 'A' 'a' :: litPat "gent=") (c3 :: s3)
                  = (if chIn2 'A' 'a' c3 = true
                     then matchPat (litPat "gent=") s3 else none) from rfl] at hm2
              rw [if_neg h3] at hm2
              cases hm2
        · rw [show matchPat (chIn2 'U' 'u' :: (litPat "ser-"
                ++ (chIn2 'A' 'a' :: litPat "gent="))) (c2 :: s2)
              = (if chIn2 'U' 'u' c2 = true
                 then matchPat (litPat "ser-" ++ (chIn2 'A' 'a' :: litPat "gent=")) s2
                 else none) from rfl] at h
          rw [if_neg h2] at h
          cases h
    · rw [show matchPat uaAmpPat (c1 :: s1)
          = (if chEq '&' c1 = true
             then matchPat (chIn2 'U' 'u' :: (litPat "ser-"
               ++ (chIn2 'A' 'a' :: litPat "gent="))) s1 else none) from rfl] at h
      rw [if_neg h1] at h
      cases h

/-- C7 counterexample: the cookie marker is not matched case-insensitively:
`|COOKIE=` and `|CoOkIe=` are rejected (only the first letter of `Cookie`
varies in `\|[Cc]ookie=`), so a URL using `|COOKIE=` passes through the m3u
transformer untouched while `|Cookie=` is canonicalized; likewise
`&USER-AGENT=` is rejected by `&[Uu]ser-[Aa]gent=`. -/
theorem C7_casing_counterexample :
    pipeFind (str "http://h/p|COOKIE=abc") = none ∧
    pipeFind (str "http://h/p|CoOkIe=abc") = none ∧
    uaFind (str "ck&USER-AGENT=ua") = none ∧
    transform_block_m3u [str "#EXTINF:-1,A", str "http://h/p|COOKIE=abc"]
      = [str "#EXTINF:-1,A", str "http://h/p|COOKIE=abc"] ∧
    transform_block_m3u [str "#EXTINF:-1,A", str "http://h/p|Cookie=abc"]
      = [str "#EXTINF:-1,A", str "#EXTHTTP:\x7b\"cookie\":\"abc\"\x7d",
         str "http://h/p?abc&xxx=%7Ccookie=abc"] :=
  ⟨rfl, rfl, rfl, rfl, rfl⟩

/-- C7 amended: the URL cookie marker is matched with only its first letter
case-variable: every successful split happened exactly at `|Cookie=` or
`|cookie=` (and both spellings are accepted); the user-agent marker varies
only in the `U` and `A`: every successful split happened exactly at one of
`&User-Agent=`, `&User-agent=`, `&user-Agent=`, `&user-agent=` (all four
accepted); other casings such as `|COOKIE=` or `&USER-AGENT=` are not
matched. -/
theorem C7_marker_casing :
    (∀ url p, pipeFind url = some p →
       url = p.1 ++ (str "|Cookie=" ++ p.2) ∨ url = p.1 ++ (str "|cookie=" ++ p.2)) ∧
    (∀ s q, uaFind s = some q →
       s = q.1 ++ (str "&User-Agent=" ++ q.2) ∨ s = q.1 ++ (str "&User-agent=" ++ q.2) ∨
       s = q.1 ++ (str "&user-Agent=" ++ q.2) ∨ s = q.1 ++ (str "&user-agent=" ++ q.2)) ∧
    (pipeFind (str "u|Cookie=c") = some (str "u", str "c") ∧
     pipeFind (str "u|cookie=c") = some (str "u", str "c")) ∧
    (uaFind (str "k&User-Agent=a") = some (str "k", str "a") ∧
     uaFind (str "k&User-agent=a") = some (str "k", str "a") ∧
     uaFind (str "k&user-Agent=a") = some (str "k", str "a") ∧
     uaFind (str "k&user-agent=a") = some (str "k", str "a")) := by
  refine ⟨?_, ?_, ⟨rfl, rfl⟩, ⟨rfl, rfl, rfl, rfl⟩⟩
  · intro url p hp
    obtain ⟨r0, he, hm⟩ := findSplitAux_sound pipeCookiePat url [] p hp
    simp only [List.reverse_nil, List.nil_append] at he
    subst he
    rcases pipePat_sound hm with h | h <;> rw [h]
    · left
      rfl
    · right
      rfl
  · intro s q hq
    obtain ⟨r0, he, hm⟩ := findSplitAux_sound uaAmpPat s [] q hq
    simp only [List.reverse_nil, List.nil_append] at he
    subst he
    rcases uaPat_sound hm with h | h | h | h <;> rw [h]
    · left
      rfl
    · right
      left
      rfl
    · right
      right
      left
      rfl
    · right
      right
      right
      rfl

/-! ### Claim C10 (confirmed) -/

theorem lookup_appendToGroup_self : ∀ (gs : List (Str × List Str)) (g ch : Str),
    lookupStr (appendToGroup gs g ch) g
      = Option.map (fun v => v ++ [ch]) (lookupStr gs g) := by
  intro gs
  induction gs with
  | nil => intro g ch; rfl
  | cons p t ih =>
    intro g ch
    obtain ⟨k', v'⟩ := p
    show lookupStr ((if k' = g then (k', v' ++ [ch]) else (k', v')) :: appendToGroup t g ch) g
      = Option.map (fun v => v ++ [ch]) (lookupStr ((k', v') :: t) g)
    by_cases hp : k' = g
    · rw [if_pos hp]
      show (if k' = g then some (v' ++ [ch]) else lookupStr (appendToGroup t g ch) g)
        = Option.map (fun v => v ++ [ch]) (if k' = g then some v' else lookupStr t g)
      rw [if_pos hp, if_pos hp]
      rfl
    · rw [if_neg hp]
      show (if k' = g then some v' else lookupStr (appendToGroup t g ch) g)
        = Option.map (fun v => v ++ [ch]) (if k' = g then some v' else lookupStr t g)
      rw [if_neg hp, if_neg hp]
      exact ih g ch

theorem cfg_body : ∀ (B : List Str) (gs : List (Str × List Str)) (g : Str) (acc : List Str),
    g.isEmpty = false →
    lookupStr gs g = some acc →
    (∀ b ∈ B, matchGroupHeader (pyStrip b) = none ∧
       pyStrip b ≠ [rbrace] ∧
       (pyStrip (pyRstripComma (pyStrip b))).isEmpty = false) →
    ∃ gs', B.foldl cfgStep ⟨gs, some g⟩ = ⟨gs', some g⟩ ∧
      lookupStr gs' g
        = some (acc ++ B.map (fun b => pyStrip (pyRstripComma (pyStrip b)))) := by
  intro B
  induction B with
  | nil =>
    intro gs g acc hg hl hB
    refine ⟨gs, rfl, ?_⟩
    rw [hl]
    simp
  | cons b bt ih =>
    intro gs g acc hg hl hB
    obtain ⟨hbh, hbr, hbc⟩ := hB b (List.mem_cons_self b bt)
    have hlineN : (pyStrip b).isEmpty = false := by
      cases hsb : pyStrip b with
      | nil =>
        rw [hsb] at hbc
        exact absurd hbc (by decide)
      | cons x xs => rfl
    have hstep : cfgStep ⟨gs, some g⟩ b
        = ⟨appendToGroup gs g (pyStrip (pyRstripComma (pyStrip b))), some g⟩ := by
      simp only [cfgStep, hlineN, hbh, Bool.false_eq_true, if_false]
      rw [show (decide (pyStrip b = [rbrace]) && optTruthy (some g)) = false from by
        rw [decide_eq_false hbr]
        rfl]
      simp only [Bool.false_eq_true, if_false]
      rw [hg]
      simp only [Bool.false_eq_true, if_false]
      rw [hbc]
      simp only [Bool.false_eq_true, if_false]
    rw [List.foldl_cons, hstep]
    have hl' : lookupStr (appendToGroup gs g (pyStrip (pyRstripComma (pyStrip b)))) g
        = some (acc ++ [pyStrip (pyRstripComma (pyStrip b))]) := by
      rw [lookup_appendToGroup_self, hl]
      rfl
    obtain ⟨gs', hfold, hlook⟩ :=
      ih _ g _ hg hl' (fun x hx => hB x (List.mem_cons_of_mem b hx))
    refine ⟨gs', hfold, ?_⟩
    rw [hlook]
    simp

/-- C10: each `GroupName: {` header line resets that group's accumulated
channel list to empty: whatever lines preceded (including earlier
occurrences of the same group header with other channels), after a header
for `g` followed by channel lines `B` and the closing brace, the parser maps
`g` to exactly the channels of `B` (stripped, trailing commas removed) —
channels collected under earlier occurrences are silently discarded. -/
theorem C10_group_header_resets (P B : List Str) (hl g : Str)
    (hh : matchGroupHeader (pyStrip hl) = some g)
    (hg : g.isEmpty = false)
    (hB : ∀ b ∈ B, matchGroupHeader (pyStrip b) = none ∧
       pyStrip b ≠ [rbrace] ∧
       (pyStrip (pyRstripComma (pyStrip b))).isEmpty = false) :
    lookupStr (parse_channels_file (P ++ hl :: (B ++ [str "\x7d"]))) g
      = some (B.map (fun b => pyStrip (pyRstripComma (pyStrip b)))) := by
  unfold parse_channels_file
  rw [List.foldl_append, List.foldl_cons]
  generalize P.foldl cfgStep ⟨[], none⟩ = st0
  have hne : (pyStrip hl).isEmpty = false := by
    cases hsl : pyStrip hl with
    | nil => rw [hsl] at hh; cases hh
    | cons a t => rfl
  have hstep : cfgStep st0 hl = ⟨dictSet st0.groups g [], some g⟩ := by
    simp only [cfgStep, hne, hh, Bool.false_eq_true, if_false]
  rw [hstep]
  have hl0 : lookupStr (dictSet st0.groups g []) g = some [] := by
    rw [lookupStr_dictSet]
    rw [if_pos rfl]
  obtain ⟨gs', hfold, hlook⟩ := cfg_body B (dictSet st0.groups g []) g [] hg hl0 hB
  rw [List.foldl_append, hfold]
  have hclose : cfgStep ⟨gs', some g⟩ (str "\x7d") = ⟨gs', none⟩ := by
    simp only [cfgStep]
    rw [show pyStrip (str "\x7d") = [rbrace] from rfl]
    rw [show ([rbrace] : Str).isEmpty = false from rfl]
    simp only [Bool.false_eq_true, if_false]
    rw [show matchGroupHeader [rbrace] = none from rfl]
    simp only [optTruthy, hg, Bool.not_false]
    rfl
  rw [List.foldl_cons, hclose]
  exact hlook

/-- Witness for C10: the config file `G: { A } G: { B }` maps `G` to `[B]`. -/
theorem C10_group_header_resets_witness :
    lookupStr (parse_channels_file ([str "G: \x7b", str "A", str "\x7d"]
      ++ (str "G: \x7b") :: ([str "B"] ++ [str "\x7d"]))) (str "G")
      = some ([str "B"].map (fun b => pyStrip (pyRstripComma (pyStrip b)))) :=
  C10_group_header_resets [str "G: \x7b", str "A", str "\x7d"] [str "B"]
    (str "G: \x7b") (str "G") (by decide) (by decide)
    (fun b hb => by
      rw [List.mem_singleton.mp hb]
      exact ⟨rfl, by decide, rfl⟩)
